import Mathlib

/-!
Verification of the benchmarking and packaging glue of the `jacobi`
repository (`benchmark_experiment/run_experiment.py`,
`benchmark_experiment/results2db.py`, `benchmark_experiment/censor_results.py`,
`conanfile.py`).

The Python sources are shallowly embedded: pure functions become Lean
functions, Python dicts become association lists (insertion order preserved,
assignment to an existing key keeps its position, as CPython dicts do),
uncaught exceptions become `Option.none` / `Except.error`, and Python floats
are idealised as exact rationals (`Rat`).
-/

namespace Jacobi

/-! ### Association lists modelling Python dicts -/

/-- Lookup of a key in an association list (Python `d[k]` / `d.get(k)`). -/
def lookupA {α : Type} : List (String × α) → String → Option α
  | [], _ => none
  | (k', v') :: t, k => if k' = k then some v' else lookupA t k

/-- Assignment `d[k] = v` on a Python dict: overwrite in place if the key is
present (keeping its position), else append at the end. -/
def updateA {α : Type} : List (String × α) → String → α → List (String × α)
  | [], k, v => [(k, v)]
  | (k', v') :: t, k, v => if k' = k then (k, v) :: t else (k', v') :: updateA t k v

/-- Removal `d.pop(k, None)` on a Python dict, modelled as a filter (dicts
hold each key at most once). -/
def removeA {α : Type} (l : List (String × α)) (k : String) : List (String × α) :=
  l.filter (fun p => p.1 != k)

theorem lookupA_updateA_self {α : Type} :
    ∀ (l : List (String × α)) (k : String) (v : α), lookupA (updateA l k v) k = some v
  | [], k, v => by simp [updateA, lookupA]
  | (a, b) :: t, k, v => by
    by_cases hk : a = k
    · simp [updateA, hk, lookupA]
    · simp [updateA, hk, lookupA, lookupA_updateA_self t k v]

theorem lookupA_updateA_ne {α : Type} :
    ∀ (l : List (String × α)) (k k' : String) (v : α), k' ≠ k →
      lookupA (updateA l k v) k' = lookupA l k'
  | [], k, k', v, h => by
    simp only [updateA, lookupA]
    exact if_neg (fun hh => h hh.symm)
  | (a, b) :: t, k, k', v, h => by
    by_cases hk : a = k
    · subst hk
      simp only [updateA, if_pos rfl, lookupA]
      rw [if_neg (fun hh => h hh.symm), if_neg (fun hh => h hh.symm)]
    · simp only [updateA, if_neg hk, lookupA]
      by_cases hk' : a = k'
      · rw [if_pos hk', if_pos hk']
      · rw [if_neg hk', if_neg hk', lookupA_updateA_ne t k k' v h]

theorem mem_updateA {α : Type} :
    ∀ (l : List (String × α)) (k : String) (v : α) (p : String × α),
      p ∈ updateA l k v → p = (k, v) ∨ p ∈ l
  | [], k, v, p, h => by simpa [updateA] using h
  | (a, b) :: t, k, v, p, h => by
    by_cases hk : a = k
    · simp only [updateA, if_pos hk, List.mem_cons] at h
      rcases h with h | h
      · exact Or.inl h
      · exact Or.inr (List.mem_cons_of_mem _ h)
    · simp only [updateA, if_neg hk, List.mem_cons] at h
      rcases h with h | h
      · exact Or.inr (by simp [h])
      · rcases mem_updateA t k v p h with h' | h'
        · exact Or.inl h'
        · exact Or.inr (List.mem_cons_of_mem _ h')

/-! ### `run_experiment.py`: `calculate_range_env` (claim C1)

Source (lines 123-148): `num_records = file_size // 32`,
`b_idx = int(num_records * 0.03)`, `e_idx = int(num_records * 0.98)`,
fallback `b_idx, e_idx = 0, num_records` when `b_idx >= e_idx`, returning
the string `f"{b_idx},{e_idx}"`.  The float products are idealised as exact
rationals; truncation of a non-negative rational is natural-number division,
so `int(n * 0.03) = n * 3 / 100` over `Nat`. -/

/-- Constant `RECORD_SIZE_BYTES = 32` from `run_experiment.py`. -/
def RECORD_SIZE_BYTES : Nat := 32

/-- Record-index pair computed by `calculate_range_env` before formatting. -/
def calculate_range (file_size : Nat) : Nat × Nat :=
  let num_records := file_size / RECORD_SIZE_BYTES
  let b_idx := num_records * 3 / 100
  let e_idx := num_records * 98 / 100
  if b_idx ≥ e_idx then (0, num_records) else (b_idx, e_idx)

/-- The string `"B,E"` returned by `calculate_range_env` for an existing data
file of the given byte size. -/
def calculate_range_env (file_size : Nat) : String :=
  toString (calculate_range file_size).1 ++ "," ++ toString (calculate_range file_size).2

/-- The claim names the record count `N = file_size // 32`. -/
def num_records_of (file_size : Nat) : Nat := file_size / RECORD_SIZE_BYTES

/-- C1: `calculate_range_env` returns `"B,E"` with `B = int(N * 0.03)` and
`E = int(N * 0.98)` where `N = file_size // 32`, except `"0,N"` when
`B >= E`; the returned pair always satisfies `0 <= B <= E <= N`. -/
theorem C1_calculate_range_env (file_size : Nat) :
    (num_records_of file_size * 3 / 100 < num_records_of file_size * 98 / 100 →
      calculate_range_env file_size =
        toString (num_records_of file_size * 3 / 100) ++ "," ++
          toString (num_records_of file_size * 98 / 100))
    ∧ (num_records_of file_size * 98 / 100 ≤ num_records_of file_size * 3 / 100 →
      calculate_range_env file_size = toString 0 ++ "," ++ toString (num_records_of file_size))
    ∧ (calculate_range file_size).1 ≤ (calculate_range file_size).2
    ∧ (calculate_range file_size).2 ≤ num_records_of file_size := by
  refine ⟨?_, ?_, ?_, ?_⟩
  · intro h
    have hne : ¬ (num_records_of file_size * 3 / 100 ≥ num_records_of file_size * 98 / 100) :=
      not_le.mpr h
    simp only [calculate_range_env, calculate_range, num_records_of, RECORD_SIZE_BYTES] at *
    rw [if_neg hne]
  · intro h
    have hge : num_records_of file_size * 3 / 100 ≥ num_records_of file_size * 98 / 100 := h
    simp only [calculate_range_env, calculate_range, num_records_of, RECORD_SIZE_BYTES] at *
    rw [if_pos hge]
  · by_cases h : num_records_of file_size * 3 / 100 ≥ num_records_of file_size * 98 / 100
    · simp only [calculate_range, num_records_of, RECORD_SIZE_BYTES] at *
      rw [if_pos h]
      exact Nat.zero_le _
    · simp only [calculate_range, num_records_of, RECORD_SIZE_BYTES] at *
      rw [if_neg h]
      exact Nat.le_of_lt (not_le.mp h)
  · by_cases h : num_records_of file_size * 3 / 100 ≥ num_records_of file_size * 98 / 100
    · simp only [calculate_range, num_records_of, RECORD_SIZE_BYTES] at *
      rw [if_pos h]
    · simp only [calculate_range, num_records_of, RECORD_SIZE_BYTES] at *
      rw [if_neg h]
      calc file_size / 32 * 98 / 100 ≤ file_size / 32 * 100 / 100 :=
            Nat.div_le_div_right (Nat.mul_le_mul_left _ (by norm_num))
        _ = file_size / 32 := Nat.mul_div_cancel _ (by norm_num)

/-- Witness for C1 at a concrete file size: 3200 bytes give 100 records and
the range string `"3,98"`. -/
theorem C1_calculate_range_env_witness :
    num_records_of 3200 * 3 / 100 < num_records_of 3200 * 98 / 100 ∧
      calculate_range_env 3200 = toString (num_records_of 3200 * 3 / 100) ++ "," ++
        toString (num_records_of 3200 * 98 / 100) :=
  ⟨by decide, (C1_calculate_range_env 3200).1 (by decide)⟩

/-! ### `run_experiment.py`: `parse_benchmark_output` (claims C2 and C7)

Source (lines 70-121).  The function scans each line of the benchmark's
stdout with the Python regex

  `^([\w\d_\/]+)\s+.+items_per_second=([0-9\.]+)([kMGT]?)\/s`

(`re.search`; the leading `^` anchors the match at the start of the line
since `re.MULTILINE` is off).  The embedding below reproduces the regex
engine's leftmost-greedy backtracking on this particular pattern:

* group 1 `[\w\d_\/]+` is the maximal prefix of word characters (the
  following `\s+` cannot match a word character, so no backtracking arises);
  `\w` is modelled as ASCII alphanumerics plus underscore;
* `\s+` is greedy over the whitespace run of length `W`; `.+` then backtracks
  from the right, so the literal `items_per_second=` is matched at the
  largest viable position `p > W` not beyond the first newline, and — when
  every such position fails and `W ≥ 2` — `\s+` gives back one non-newline
  whitespace character and the literal is tried at position `W` itself;
* group 2 `[0-9\.]+` is greedy over digits and dots, shrinking from the
  right until the optional `[kMGT]?` suffix (one-character alternative
  first) followed by the literal `/s` matches. -/

/-- Character class `[\w\d_\/]` of the benchmark-name group (ASCII `\w`). -/
def isWordCh (c : Char) : Bool := c.isAlphanum || c == '_' || c == '/'

/-- Python `\s` on ASCII text. -/
def isSpaceCh (c : Char) : Bool :=
  c == ' ' || c == '\t' || c == '\n' || c == '\r' || c == '\x0b' || c == '\x0c'

/-- Character class `[0-9\.]` of the value group. -/
def isNumCh (c : Char) : Bool := c.isDigit || c == '.'

/-- The literal part of the regex. -/
def ips_literal : List Char := "items_per_second=".data

/-- Attempt of the regex tail `([kMGT]?)\/s` at the current position, trying
the one-character suffix before the empty one as the regex engine does. -/
def trySuffix (rest : List Char) : Option (Option Char) :=
  match rest with
  | 'k' :: '/' :: 's' :: _ => some (some 'k')
  | 'M' :: '/' :: 's' :: _ => some (some 'M')
  | 'G' :: '/' :: 's' :: _ => some (some 'G')
  | 'T' :: '/' :: 's' :: _ => some (some 'T')
  | '/' :: 's' :: _ => some none
  | _ => none

/-- Greedy match of `([0-9\.]+)([kMGT]?)\/s`: the digit group, given reversed,
shrinks from the right until the tail matches. -/
def numTailAux : List Char → List Char → Option (List Char × Option Char)
  | [], _ => none
  | c :: revds, rest =>
    match trySuffix rest with
    | some suf => some ((c :: revds).reverse, suf)
    | none => numTailAux revds (c :: rest)

/-- Match of `([0-9\.]+)([kMGT]?)\/s` at the start of `s`. -/
def parseNumTail (s : List Char) : Option (List Char × Option Char) :=
  numTailAux (s.takeWhile isNumCh).reverse (s.dropWhile isNumCh)

/-- Attempt of `items_per_second=([0-9\.]+)([kMGT]?)\/s` at position `p`. -/
def tryAt (r : List Char) (p : Nat) : Option (List Char × Option Char) :=
  if ips_literal.isPrefixOf (r.drop p) then parseNumTail (r.drop (p + ips_literal.length))
  else none

/-- Backtracking of the greedy `.+`: positions are tried from `p` down to
`W + 1`. -/
def searchDesc (r : List Char) (W : Nat) : Nat → Option (List Char × Option Char)
  | 0 => none
  | p + 1 =>
    if p + 1 ≤ W then none
    else
      match tryAt r (p + 1) with
      | some x => some x
      | none => searchDesc r W p

/-- Match of the part after `^([\w\d_\/]+)\s+` given the whitespace-run
length `W`: the `.+` backtracks down from the first newline (or the end of
the line), and if that fails `\s+` gives back one non-newline character so
the literal is tried at `W` itself (possible only when `W ≥ 2`). -/
def lineMatchSearch (name r : List Char) (W : Nat) :
    Option (List Char × List Char × Option Char) :=
  match searchDesc r W (W + ((r.drop W).takeWhile (· != '\n')).length) with
  | some (d, s) => some (name, d, s)
  | none =>
    if 2 ≤ W ∧ r.get? (W - 1) ≠ some '\n' then
      match tryAt r W with
      | some (d, s) => some (name, d, s)
      | none => none
    else none

/-- Match of `\s+.+items_per_second=...` on the remainder `r` of the line. -/
def lineMatchAfterName (name r : List Char) :
    Option (List Char × List Char × Option Char) :=
  if (r.takeWhile isSpaceCh).length = 0 then none
  else lineMatchSearch name r (r.takeWhile isSpaceCh).length

/-- Full regex search on one line (as a character list), returning the three
captured groups. -/
def lineMatchCore (cs : List Char) : Option (List Char × List Char × Option Char) :=
  match cs.takeWhile isWordCh with
  | [] => none
  | _ :: _ =>
    lineMatchAfterName (cs.takeWhile isWordCh) (cs.drop (cs.takeWhile isWordCh).length)

/-- Regex search on one stdout line. -/
def lineMatch (s : String) : Option (String × String × Option Char) :=
  (lineMatchCore s.data).map (fun x => (String.mk x.1, String.mk x.2.1, x.2.2))

/-- Numeric value of a digit string (no dot). -/
def natOfDigits (l : List Char) : Nat :=
  l.foldl (fun a c => a * 10 + (c.toNat - '0'.toNat)) 0

/-- Exact value of a digits-and-dots literal (integer part, dot, fraction). -/
def ratOfNumChars (l : List Char) : Rat :=
  (natOfDigits (l.takeWhile (· != '.')) : Rat) +
    (natOfDigits ((l.dropWhile (· != '.')).drop 1) : Rat) /
      (10 : Rat) ^ ((l.dropWhile (· != '.')).drop 1).length

/-- Python `float()` on a `[0-9\.]+` string: defined exactly when the string
has at least one digit and at most one dot, raising `ValueError` (`none`)
otherwise; floats are idealised as exact rationals. -/
def pyFloat (l : List Char) : Option Rat :=
  if l.any Char.isDigit ∧ l.count '.' ≤ 1 then some (ratOfNumChars l) else none

/-- The `multipliers` dict of `parse_benchmark_output` together with the
`.get(unit_suffix, 0)` default. -/
def multiplier : Option Char → Rat
  | some 'T' => 1000000
  | some 'G' => 1000
  | some 'M' => 1
  | some 'k' => 1 / 1000
  | none => 1 / 1000000
  | some _ => 0

/-- Python `round(x, 4)` (round half to even at four decimal places),
idealised on exact rationals. -/
def pyRound4 (x : Rat) : Rat :=
  ((if x * 10000 - ⌊x * 10000⌋ < 1 / 2 then ⌊x * 10000⌋
    else if (1 : Rat) / 2 < x * 10000 - ⌊x * 10000⌋ then ⌊x * 10000⌋ + 1
    else if ⌊x * 10000⌋ % 2 = 0 then ⌊x * 10000⌋ else ⌊x * 10000⌋ + 1 : Int) : Rat) / 10000

/-- One entry of the rich measurement dict built by `parse_benchmark_output`. -/
structure Measurement where
  name : String
  value_Mps : Rat
  ratio : Rat
deriving DecidableEq, Repr

/-- Return value of `parse_benchmark_output`: `summary = none` models the
early `return {}`, otherwise the summary holds `(max_Mps, min_Mps)`. -/
structure ParsedBench where
  summary : Option (Rat × Rat)
  measurements : List Measurement
deriving DecidableEq, Repr

/-- One iteration of the raw-value loop: `none` records an uncaught
`ValueError` from `float()`, which aborts the Python process. -/
def tempStep (acc : Option (List (String × Rat))) (line : String) :
    Option (List (String × Rat)) :=
  match acc with
  | none => none
  | some t =>
    match lineMatchCore line.data with
    | none => some t
    | some (n, ds, suf) =>
      match pyFloat ds with
      | none => none
      | some v => some (updateA t (String.mk n) (v * multiplier suf))

/-- The `temp_measurements` dict after scanning all lines. -/
def buildTemp (lines : List String) : Option (List (String × Rat)) :=
  lines.foldl tempStep (some [])

/-- The function `parse_benchmark_output`, taking the stdout already split
into lines (`output_text.splitlines()`). -/
def parse_benchmark_output (lines : List String) : Option ParsedBench :=
  match buildTemp lines with
  | none => none
  | some [] => some ⟨none, []⟩
  | some ((n, v) :: rest) =>
    let maxV := (rest.map Prod.snd).foldl max v
    let minV := (rest.map Prod.snd).foldl min v
    some ⟨some (maxV, minV),
      ((n, v) :: rest).map (fun p =>
        ⟨p.1, p.2, pyRound4 (if 0 < maxV then p.2 / maxV else 0)⟩)⟩

/-! ### List and character-class helper lemmas for the regex proofs -/

theorem takeWhile_append_of_all {p : Char → Bool} :
    ∀ (X Y : List Char), (∀ c ∈ X, p c = true) →
      (X ++ Y).takeWhile p = X ++ Y.takeWhile p
  | [], Y, _ => rfl
  | x :: X, Y, h => by
    have hx : p x = true := h x (List.mem_cons_self x X)
    simp only [List.cons_append, List.takeWhile_cons, hx, if_true]
    rw [takeWhile_append_of_all X Y (fun c hc => h c (List.mem_cons_of_mem _ hc))]

theorem takeWhile_eq_self_of_all {p : Char → Bool} (X : List Char)
    (h : ∀ c ∈ X, p c = true) : X.takeWhile p = X := by
  have := takeWhile_append_of_all (p := p) X [] h
  simpa using this

theorem dropWhile_append_of_all {p : Char → Bool} :
    ∀ (X Y : List Char), (∀ c ∈ X, p c = true) →
      (X ++ Y).dropWhile p = Y.dropWhile p
  | [], Y, _ => rfl
  | x :: X, Y, h => by
    have hx : p x = true := h x (List.mem_cons_self x X)
    simp only [List.cons_append, List.dropWhile_cons, hx, if_true]
    exact dropWhile_append_of_all X Y (fun c hc => h c (List.mem_cons_of_mem _ hc))

theorem takeWhile_cons_of_neg {p : Char → Bool} (z : Char) (Z : List Char)
    (h : p z = false) : (z :: Z).takeWhile p = [] := by
  simp [List.takeWhile_cons, h]

theorem dropWhile_cons_of_neg {p : Char → Bool} (z : Char) (Z : List Char)
    (h : p z = false) : (z :: Z).dropWhile p = z :: Z := by
  simp [List.dropWhile_cons, h]

theorem isPrefixOf_append_self : ∀ (X Y : List Char), X.isPrefixOf (X ++ Y) = true
  | [], _ => by simp [List.isPrefixOf]
  | x :: X, Y => by
    simp only [List.cons_append, List.isPrefixOf_cons₂_self]
    exact isPrefixOf_append_self X Y

theorem isPrefixOf_eq_false_of_no_i (X : List Char) (h : ∀ c ∈ X, c ≠ 'i') :
    ips_literal.isPrefixOf X = false := by
  cases X with
  | nil => rfl
  | cons x xs =>
    have hx : x ≠ 'i' := h x (List.mem_cons_self x xs)
    show (('i' : Char) == x && _) = false
    have : (('i' : Char) == x) = false := by
      simp only [beq_eq_false_iff_ne, ne_eq]
      exact fun hh => hx hh.symm
    rw [this, Bool.false_and]

theorem spaceCh_not_wordCh (c : Char) (h : isSpaceCh c = true) : isWordCh c = false := by
  simp only [isSpaceCh, Bool.or_eq_true, beq_iff_eq] at h
  rcases h with ((((h | h) | h) | h) | h) | h <;> subst h <;> decide

theorem numCh_ne_i (c : Char) (h : isNumCh c = true) : c ≠ 'i' := by
  intro hc
  subst hc
  exact absurd h (by decide)

theorem numCh_ne_nl (c : Char) (h : isNumCh c = true) : c ≠ '\n' := by
  intro hc
  subst hc
  exact absurd h (by decide)

/-- Shape of the characters a suffix group may capture. -/
def sufChars : Option Char → List Char
  | none => []
  | some c => [c]

/-- Enumeration of the admissible values of the suffix group. -/
def sufOk (suf : Option Char) : Prop :=
  suf = none ∨ suf = some 'k' ∨ suf = some 'M' ∨ suf = some 'G' ∨ suf = some 'T'

theorem searchDesc_found (r : List Char) (W q : Nat) (res : List Char × Option Char)
    (hWq : W < q) (hq : tryAt r q = some res)
    (habove : ∀ p, q < p → tryAt r p = none) :
    ∀ n, q ≤ n → searchDesc r W n = some res := by
  intro n
  induction n with
  | zero =>
    intro h
    omega
  | succ m ih =>
    intro h
    by_cases hqm : q = m + 1
    · subst hqm
      simp only [searchDesc]
      rw [if_neg (by omega), hq]
    · have hlt : q ≤ m := by omega
      simp only [searchDesc]
      rw [if_neg (by omega), habove (m + 1) (by omega)]
      exact ih hlt

/-- Main structural lemma for C2: a line consisting of a non-empty word-class
name, non-empty whitespace, a non-empty middle that starts with a non-space
character and contains neither `i` nor a newline, the literal
`items_per_second=`, a non-empty digits-and-dots value, an optional `kMGT`
suffix and the closing `/s` is matched by the regex with exactly those three
groups. -/
theorem lineMatchCore_structured (A B C D : List Char) (suf : Option Char)
    (hA : A ≠ [] ∧ ∀ c ∈ A, isWordCh c = true)
    (hB : B ≠ [] ∧ ∀ c ∈ B, isSpaceCh c = true)
    (hC : C ≠ [] ∧ (∀ c ∈ C, c ≠ 'i' ∧ c ≠ '\n') ∧
      ∀ c, C.head? = some c → isSpaceCh c = false)
    (hD : D ≠ [] ∧ ∀ c ∈ D, isNumCh c = true)
    (hsuf : sufOk suf) :
    lineMatchCore (A ++ B ++ C ++ ips_literal ++ D ++ sufChars suf ++ ['/', 's']) =
      some (A, D, suf) := by
  obtain ⟨hAne, hAw⟩ := hA
  obtain ⟨hBne, hBs⟩ := hB
  obtain ⟨hCne, hCni, hChead⟩ := hC
  obtain ⟨hDne, hDn⟩ := hD
  obtain ⟨a0, A', rfl⟩ : ∃ a0 A', A = a0 :: A' := by
    cases A with
    | nil => exact absurd rfl hAne
    | cons x xs => exact ⟨x, xs, rfl⟩
  obtain ⟨b0, B', rfl⟩ : ∃ b0 B', B = b0 :: B' := by
    cases B with
    | nil => exact absurd rfl hBne
    | cons x xs => exact ⟨x, xs, rfl⟩
  obtain ⟨c0, C', rfl⟩ : ∃ c0 C', C = c0 :: C' := by
    cases C with
    | nil => exact absurd rfl hCne
    | cons x xs => exact ⟨x, xs, rfl⟩
  set A : List Char := a0 :: A' with hAdef
  set B : List Char := b0 :: B' with hBdef
  set C : List Char := c0 :: C' with hCdef
  set S : List Char := sufChars suf with hSdef
  set T : List Char := ['/', 's'] with hTdef
  have hSno : ∀ c ∈ S, c ≠ 'i' ∧ c ≠ '\n' ∧ isNumCh c = false := by
    rcases hsuf with h | h | h | h | h <;> subst h <;> simp [hSdef, sufChars] <;> decide
  -- normalise the concatenation
  have hsplit : A ++ B ++ C ++ ips_literal ++ D ++ S ++ T =
      A ++ (B ++ (C ++ (ips_literal ++ (D ++ (S ++ T))))) := by
    simp [List.append_assoc]
  rw [hsplit]
  set rest : List Char := B ++ (C ++ (ips_literal ++ (D ++ (S ++ T)))) with hrest
  -- step 1: the name group takes exactly A
  have htw : (A ++ rest).takeWhile isWordCh = A := by
    rw [takeWhile_append_of_all A rest hAw]
    have : rest.takeWhile isWordCh = [] := by
      rw [hrest, hBdef]
      exact takeWhile_cons_of_neg _ _
        (spaceCh_not_wordCh b0 (hBs b0 (List.mem_cons_self b0 B')))
    rw [this, List.append_nil]
  -- step 2: the remainder after the name
  have hdropA : (A ++ rest).drop ((A ++ rest).takeWhile isWordCh).length = rest := by
    rw [htw]
    exact List.drop_left A rest
  -- step 3: the whitespace run has length exactly B.length
  have htwsp : rest.takeWhile isSpaceCh = B := by
    rw [hrest]
    rw [takeWhile_append_of_all B _ hBs]
    have : (C ++ (ips_literal ++ (D ++ (S ++ T)))).takeWhile isSpaceCh = [] := by
      rw [hCdef]
      exact takeWhile_cons_of_neg _ _ (hChead c0 rfl)
    rw [this, List.append_nil]
  -- step 4: the `.+` search region extends to the end of the line
  have hLno : ∀ c ∈ ips_literal, c ≠ '\n' := by decide
  have hTno : ∀ c ∈ T, c ≠ '\n' ∧ c ≠ 'i' ∧ isNumCh c = false := by
    rw [hTdef]
    decide
  have hdropW : rest.drop B.length = C ++ (ips_literal ++ (D ++ (S ++ T))) := by
    rw [hrest]
    exact List.drop_left B _
  have htail_all : ∀ c ∈ C ++ (ips_literal ++ (D ++ (S ++ T))), (c != '\n') = true := by
    intro c hc
    simp only [bne_iff_ne, ne_eq]
    simp only [List.mem_append] at hc
    rcases hc with hc | hc | hc | hc | hc
    · exact (hCni c hc).2
    · exact hLno c hc
    · exact numCh_ne_nl c (hDn c hc)
    · exact (hSno c hc).2.1
    · exact (hTno c hc).1
  have hbound : B.length + ((rest.drop B.length).takeWhile (· != '\n')).length =
      rest.length := by
    rw [hdropW, takeWhile_eq_self_of_all _ htail_all, hrest]
    simp [List.length_append]
  -- step 5a: the literal succeeds at position q = B.length + C.length
  have hqsplit : rest = (B ++ C) ++ (ips_literal ++ (D ++ (S ++ T))) := by
    rw [hrest]
    simp [List.append_assoc]
  have hdropQ : rest.drop (B.length + C.length) = ips_literal ++ (D ++ (S ++ T)) := by
    conv_lhs => rw [hqsplit]
    have : B.length + C.length = (B ++ C).length := (List.length_append B C).symm
    rw [this]
    exact List.drop_left _ _
  have hdropQL : rest.drop (B.length + C.length + ips_literal.length) =
      D ++ (S ++ T) := by
    conv_lhs => rw [hqsplit]
    have h1 : ((B ++ C) ++ (ips_literal ++ (D ++ (S ++ T)))) =
        ((B ++ C) ++ ips_literal) ++ (D ++ (S ++ T)) := by
      simp [List.append_assoc]
    rw [h1]
    have h2 : B.length + C.length + ips_literal.length = ((B ++ C) ++ ips_literal).length := by
      simp [List.length_append]
      omega
    rw [h2]
    exact List.drop_left _ _
  have hSTnum : (S ++ T).takeWhile isNumCh = [] := by
    rcases hsuf with h | h | h | h | h <;> subst h <;>
      simp only [hSdef, sufChars, hTdef, List.nil_append, List.cons_append] <;>
      exact takeWhile_cons_of_neg _ _ (by decide)
  have hSTdrop : (S ++ T).dropWhile isNumCh = S ++ T := by
    rcases hsuf with h | h | h | h | h <;> subst h <;>
      simp only [hSdef, sufChars, hTdef, List.nil_append, List.cons_append] <;>
      exact dropWhile_cons_of_neg _ _ (by decide)
  have hnumAll : ∀ c ∈ D, isNumCh c = true := hDn
  have htrySuffix : trySuffix (S ++ T) = some suf := by
    rcases hsuf with h | h | h | h | h <;> subst h <;> rfl
  have hparseNum : parseNumTail (D ++ (S ++ T)) = some (D, suf) := by
    unfold parseNumTail
    rw [takeWhile_append_of_all D _ hnumAll, hSTnum, List.append_nil]
    rw [dropWhile_append_of_all D _ hnumAll, hSTdrop]
    obtain ⟨e, E, hrev⟩ : ∃ e E, D.reverse = e :: E := by
      cases hDr : D.reverse with
      | nil =>
        exact absurd (by simpa using congrArg List.reverse hDr) hDne
      | cons x xs => exact ⟨x, xs, rfl⟩
    rw [hrev]
    unfold numTailAux
    rw [htrySuffix]
    have : (e :: E).reverse = D := by
      rw [← hrev, List.reverse_reverse]
    rw [this]
  have htryQ : tryAt rest (B.length + C.length) = some (D, suf) := by
    unfold tryAt
    rw [hdropQ, hdropQL]
    rw [isPrefixOf_append_self, if_pos rfl]
    exact hparseNum
  -- step 5b: the literal fails at every position beyond q
  have hdropQ1 : rest.drop (B.length + C.length + 1) =
      "tems_per_second=".data ++ (D ++ (S ++ T)) := by
    have hL : ips_literal = 'i' :: "tems_per_second=".data := by decide
    have h1 : rest = ((B ++ C) ++ ['i']) ++ ("tems_per_second=".data ++ (D ++ (S ++ T))) := by
      rw [hqsplit, hL]
      simp [List.append_assoc]
    conv_lhs => rw [h1]
    have h2 : B.length + C.length + 1 = ((B ++ C) ++ ['i']).length := by
      simp [List.length_append]
      omega
    rw [h2]
    exact List.drop_left _ _
  have hP0_no_i : ∀ c ∈ "tems_per_second=".data ++ (D ++ (S ++ T)), c ≠ 'i' := by
    intro c hc
    simp only [List.mem_append] at hc
    rcases hc with hc | hc | hc | hc
    · revert hc
      revert c
      decide
    · exact numCh_ne_i c (hDn c hc)
    · exact (hSno c hc).1
    · exact (hTno c hc).2.1
  have habove : ∀ p, B.length + C.length < p → tryAt rest p = none := by
    intro p hp
    unfold tryAt
    have hdp : rest.drop p =
        ("tems_per_second=".data ++ (D ++ (S ++ T))).drop (p - (B.length + C.length + 1)) := by
      rw [← hdropQ1, List.drop_drop]
      congr 1
      omega
    rw [hdp]
    rw [isPrefixOf_eq_false_of_no_i _
      (fun c hc => hP0_no_i c (List.mem_of_mem_drop hc))]
    simp
  -- step 5c: the descending search lands exactly on q
  have hWq : B.length < B.length + C.length := by
    rw [hCdef]
    simp
  have hqle : B.length + C.length ≤ rest.length := by
    rw [hrest]
    simp [List.length_append]
  have hsearch : searchDesc rest B.length rest.length = some (D, suf) :=
    searchDesc_found rest B.length (B.length + C.length) (D, suf) hWq htryQ habove
      rest.length hqle
  -- step 6: assemble
  unfold lineMatchCore
  rw [htw]
  show lineMatchAfterName A ((A ++ rest).drop A.length) = some (A, D, suf)
  rw [List.drop_left]
  unfold lineMatchAfterName
  rw [htwsp]
  rw [if_neg (by rw [hBdef]; simp)]
  unfold lineMatchSearch
  rw [hbound, hsearch]

/-! ### Bookkeeping lemmas about the measurement dict -/

/-- Names captured by the regex on the matching lines, in line order. -/
def matchedNames (lines : List String) : List String :=
  lines.filterMap (fun l => (lineMatchCore l.data).map (fun x => String.mk x.1))

theorem foldl_tempStep_none : ∀ (ls : List String), ls.foldl tempStep none = none
  | [] => rfl
  | l :: ls => by
    show ls.foldl tempStep (tempStep none l) = none
    rw [show tempStep none l = none from rfl]
    exact foldl_tempStep_none ls

theorem lookupA_eq_none_of_not_mem {α : Type} :
    ∀ (l : List (String × α)) (k : String), k ∉ l.map Prod.fst → lookupA l k = none
  | [], _, _ => rfl
  | (a, b) :: t, k, h => by
    simp only [List.map_cons, List.mem_cons] at h
    push_neg at h
    simp only [lookupA]
    rw [if_neg (fun hh => h.1 hh.symm)]
    exact lookupA_eq_none_of_not_mem t k h.2

theorem updateA_of_lookup_none {α : Type} :
    ∀ (l : List (String × α)) (k : String) (v : α), lookupA l k = none →
      updateA l k v = l ++ [(k, v)]
  | [], k, v, _ => rfl
  | (a, b) :: t, k, v, h => by
    simp only [lookupA] at h
    by_cases hk : a = k
    · rw [if_pos hk] at h
      exact absurd h (by simp)
    · rw [if_neg hk] at h
      simp only [updateA, if_neg hk, List.cons_append]
      rw [updateA_of_lookup_none t k v h]

theorem updateA_ne_nil {α : Type} (l : List (String × α)) (k : String) (v : α) :
    updateA l k v ≠ [] := by
  cases l with
  | nil => simp [updateA]
  | cons a t =>
    simp only [updateA]
    by_cases hk : a.1 = k
    · rw [if_pos hk]
      simp
    · rw [if_neg hk]
      simp

theorem foldl_tempStep_all_none :
    ∀ (ls : List String) (t0 : List (String × Rat)),
      (∀ l ∈ ls, lineMatchCore l.data = none) → ls.foldl tempStep (some t0) = some t0
  | [], _, _ => rfl
  | l :: ls, t0, h => by
    have hl : lineMatchCore l.data = none := h l (List.mem_cons_self l ls)
    show ls.foldl tempStep (tempStep (some t0) l) = some t0
    have : tempStep (some t0) l = some t0 := by
      simp only [tempStep, hl]
    rw [this]
    exact foldl_tempStep_all_none ls t0 (fun x hx => h x (List.mem_cons_of_mem _ hx))

theorem buildTemp_keys :
    ∀ (ls : List String) (t0 : List (String × Rat)),
      (t0.map Prod.fst ++ matchedNames ls).Nodup →
      ∀ t, ls.foldl tempStep (some t0) = some t →
        t.map Prod.fst = t0.map Prod.fst ++ matchedNames ls
  | [], t0, _, t, ht => by
    simp only [List.foldl_nil, Option.some_inj] at ht
    subst ht
    simp [matchedNames]
  | l :: ls, t0, hnd, t, ht => by
    rw [List.foldl_cons] at ht
    cases hm : lineMatchCore l.data with
    | none =>
      have hstep : tempStep (some t0) l = some t0 := by
        simp only [tempStep, hm]
      rw [hstep] at ht
      have hmn : matchedNames (l :: ls) = matchedNames ls := by
        simp [matchedNames, List.filterMap_cons, hm]
      rw [hmn] at hnd ⊢
      exact buildTemp_keys ls t0 hnd t ht
    | some x =>
      obtain ⟨n, ds, sf⟩ := x
      have hmn : matchedNames (l :: ls) = String.mk n :: matchedNames ls := by
        simp [matchedNames, List.filterMap_cons, hm]
      cases hf : pyFloat ds with
      | none =>
        have hstep : tempStep (some t0) l = none := by
          simp only [tempStep, hm, hf]
        rw [hstep, foldl_tempStep_none] at ht
        exact absurd ht (by simp)
      | some v =>
        have hstep : tempStep (some t0) l =
            some (updateA t0 (String.mk n) (v * multiplier sf)) := by
          simp only [tempStep, hm, hf]
        rw [hstep] at ht
        rw [hmn] at hnd
        have hnotmem : String.mk n ∉ t0.map Prod.fst := by
          intro hmem
          rcases List.nodup_append.mp hnd with ⟨_, _, hdisj⟩
          exact hdisj hmem (List.mem_cons_self _ _)
        have hupd : updateA t0 (String.mk n) (v * multiplier sf) =
            t0 ++ [(String.mk n, v * multiplier sf)] :=
          updateA_of_lookup_none t0 _ _ (lookupA_eq_none_of_not_mem t0 _ hnotmem)
        rw [hupd] at ht
        have hnd' : ((t0 ++ [(String.mk n, v * multiplier sf)]).map Prod.fst ++
            matchedNames ls).Nodup := by
          simpa [List.append_assoc] using hnd
        have hres := buildTemp_keys ls _ hnd' t ht
        rw [hres, hmn]
        simp [List.append_assoc]

theorem foldl_tempStep_ne_nil :
    ∀ (ls : List String) (t0 : List (String × Rat)), t0 ≠ [] →
      ∀ t, ls.foldl tempStep (some t0) = some t → t ≠ []
  | [], t0, h0, t, ht => by
    simp only [List.foldl_nil, Option.some_inj] at ht
    subst ht
    exact h0
  | l :: ls, t0, h0, t, ht => by
    rw [List.foldl_cons] at ht
    cases hm : lineMatchCore l.data with
    | none =>
      rw [show tempStep (some t0) l = some t0 by simp only [tempStep, hm]] at ht
      exact foldl_tempStep_ne_nil ls t0 h0 t ht
    | some x =>
      obtain ⟨n, ds, sf⟩ := x
      cases hf : pyFloat ds with
      | none =>
        rw [show tempStep (some t0) l = none by simp only [tempStep, hm, hf],
          foldl_tempStep_none] at ht
        exact absurd ht (by simp)
      | some v =>
        rw [show tempStep (some t0) l = some (updateA t0 (String.mk n) (v * multiplier sf))
          by simp only [tempStep, hm, hf]] at ht
        exact foldl_tempStep_ne_nil ls _ (updateA_ne_nil t0 _ _) t ht

theorem foldl_tempStep_match :
    ∀ (ls : List String) (t0 : List (String × Rat)),
      (∃ l ∈ ls, (lineMatchCore l.data).isSome) →
      ∀ t, ls.foldl tempStep (some t0) = some t → t ≠ []
  | [], _, hex, _, _ => by simp at hex
  | l :: ls, t0, hex, t, ht => by
    rw [List.foldl_cons] at ht
    cases hm : lineMatchCore l.data with
    | none =>
      rw [show tempStep (some t0) l = some t0 by simp only [tempStep, hm]] at ht
      obtain ⟨x, hx, hxs⟩ := hex
      rcases List.mem_cons.mp hx with rfl | hx'
      · rw [hm] at hxs
        exact absurd hxs (by simp)
      · exact foldl_tempStep_match ls t0 ⟨x, hx', hxs⟩ t ht
    | some y =>
      obtain ⟨n, ds, sf⟩ := y
      cases hf : pyFloat ds with
      | none =>
        rw [show tempStep (some t0) l = none by simp only [tempStep, hm, hf],
          foldl_tempStep_none] at ht
        exact absurd ht (by simp)
      | some v =>
        rw [show tempStep (some t0) l = some (updateA t0 (String.mk n) (v * multiplier sf))
          by simp only [tempStep, hm, hf]] at ht
        exact foldl_tempStep_ne_nil ls _ (updateA_ne_nil t0 _ _) t ht

theorem parse_empty_iff (lines : List String) :
    (∀ l ∈ lines, lineMatchCore l.data = none) ↔
      parse_benchmark_output lines = some ⟨none, []⟩ := by
  constructor
  · intro h
    unfold parse_benchmark_output buildTemp
    rw [foldl_tempStep_all_none lines [] h]
  · intro hp l hl
    by_contra hne
    have hex : ∃ x ∈ lines, (lineMatchCore x.data).isSome :=
      ⟨l, hl, Option.ne_none_iff_isSome.mp hne⟩
    unfold parse_benchmark_output at hp
    cases hb : buildTemp lines with
    | none =>
      rw [hb] at hp
      exact absurd hp (by simp)
    | some t =>
      have htne : t ≠ [] := foldl_tempStep_match lines [] hex t hb
      rw [hb] at hp
      cases t with
      | nil => exact htne rfl
      | cons p rest => simp at hp

theorem parse_names (lines : List String) (r : ParsedBench)
    (hr : parse_benchmark_output lines = some r)
    (hnd : (matchedNames lines).Nodup) :
    r.measurements.map Measurement.name = matchedNames lines := by
  unfold parse_benchmark_output at hr
  cases hb : buildTemp lines with
  | none =>
    rw [hb] at hr
    exact absurd hr (by simp)
  | some t =>
    have hkeys : t.map Prod.fst = matchedNames lines := by
      have := buildTemp_keys lines [] (by simpa using hnd) t hb
      simpa using this
    rw [hb] at hr
    cases t with
    | nil =>
      simp only [Option.some_inj] at hr
      subst hr
      simpa using hkeys.symm
    | cons p rest =>
      obtain ⟨n, v⟩ := p
      simp only [Option.some_inj] at hr
      subst hr
      simp only [List.map_map, List.map_cons]
      simpa using hkeys

/-! ### The suffix group can only capture `k`, `M`, `G`, `T` or nothing -/

theorem trySuffix_sufOk (rest : List Char) (s : Option Char)
    (h : trySuffix rest = some s) : sufOk s := by
  unfold trySuffix at h
  split at h <;> first
    | (injection h with h; subst h; simp [sufOk])
    | exact absurd h (by simp)

theorem numTailAux_sufOk :
    ∀ (revds rest : List Char) (d : List Char) (s : Option Char),
      numTailAux revds rest = some (d, s) → sufOk s
  | [], _, _, _, h => by simp [numTailAux] at h
  | c :: revds, rest, d, s, h => by
    unfold numTailAux at h
    cases htr : trySuffix rest with
    | none =>
      rw [htr] at h
      exact numTailAux_sufOk revds (c :: rest) d s h
    | some suf =>
      rw [htr] at h
      simp only [Option.some_inj, Prod.mk.injEq] at h
      exact h.2 ▸ trySuffix_sufOk rest suf htr

theorem tryAt_sufOk (r : List Char) (p : Nat) (d : List Char) (s : Option Char)
    (h : tryAt r p = some (d, s)) : sufOk s := by
  unfold tryAt at h
  split at h
  · exact numTailAux_sufOk _ _ d s h
  · exact absurd h (by simp)

theorem searchDesc_sufOk (r : List Char) (W : Nat) :
    ∀ (n : Nat) (d : List Char) (s : Option Char),
      searchDesc r W n = some (d, s) → sufOk s
  | 0, d, s, h => by simp [searchDesc] at h
  | p + 1, d, s, h => by
    unfold searchDesc at h
    split at h
    · exact absurd h (by simp)
    · cases hta : tryAt r (p + 1) with
      | none =>
        rw [hta] at h
        exact searchDesc_sufOk r W p d s h
      | some x =>
        rw [hta] at h
        simp only [Option.some_inj] at h
        subst h
        exact tryAt_sufOk r (p + 1) d s hta

theorem lineMatchSearch_sufOk (name r : List Char) (W : Nat) (n d : List Char)
    (s : Option Char) (h : lineMatchSearch name r W = some (n, d, s)) : sufOk s := by
  unfold lineMatchSearch at h
  cases hsd : searchDesc r W (W + ((r.drop W).takeWhile (· != '\n')).length) with
  | some x =>
    rw [hsd] at h
    obtain ⟨xd, xs⟩ := x
    simp only [Option.some_inj, Prod.mk.injEq] at h
    obtain ⟨-, -, hs⟩ := h
    exact hs ▸ searchDesc_sufOk r W _ xd xs hsd
  | none =>
    rw [hsd] at h
    by_cases hc : 2 ≤ W ∧ r.get? (W - 1) ≠ some '\n'
    · rw [if_pos hc] at h
      cases hta : tryAt r W with
      | some x =>
        rw [hta] at h
        obtain ⟨xd, xs⟩ := x
        simp only [Option.some_inj, Prod.mk.injEq] at h
        obtain ⟨-, -, hs⟩ := h
        exact hs ▸ tryAt_sufOk r W xd xs hta
      | none =>
        rw [hta] at h
        exact absurd h (by simp)
    · rw [if_neg hc] at h
      exact absurd h (by simp)

theorem lineMatchCore_sufOk (cs : List Char) (n d : List Char) (s : Option Char)
    (h : lineMatchCore cs = some (n, d, s)) : sufOk s := by
  unfold lineMatchCore at h
  split at h
  · exact absurd h (by simp)
  · unfold lineMatchAfterName at h
    split at h
    · exact absurd h (by simp)
    · exact lineMatchSearch_sufOk _ _ _ n d s h

theorem matchedNames_length :
    ∀ (lines : List String), (matchedNames lines).length =
      (lines.filter (fun l => (lineMatch l).isSome)).length
  | [] => rfl
  | l :: ls => by
    have ih := matchedNames_length ls
    simp only [matchedNames] at ih ⊢
    cases hm : lineMatchCore l.data with
    | none =>
      simp [List.filterMap_cons, List.filter_cons, hm, lineMatch, ih]
    | some x =>
      simp [List.filterMap_cons, List.filter_cons, hm, lineMatch, ih]

/-- C2: `parse_benchmark_output` records exactly one measurement per stdout
line matching `name ... items_per_second=VALUE<suffix>/s` with suffix in
`k`, `M`, `G`, `T` or empty, converting `VALUE` to millions per second
with the factors `T = 1e6`, `G = 1e3`, `M = 1`, `k = 1e-3` and `1e-6` for a
bare `/s`; non-matching lines contribute nothing, and the function returns
the empty dict when no line matches.  The first conjunct settles the
empty-dict case; the second shows that a line of exactly the claimed shape
matches with the expected groups; the third records the conversion factors;
the fourth shows a matching line always has an admissible suffix and
contributes exactly the converted value under the captured name; the last
two show there is one measurement per matching line (names taken distinct,
since the dict collapses duplicates). -/
theorem C2_parse_benchmark_output (lines : List String)
    (A B C D : List Char) (suf : Option Char)
    (hA : A ≠ [] ∧ ∀ c ∈ A, isWordCh c = true)
    (hB : B ≠ [] ∧ ∀ c ∈ B, isSpaceCh c = true)
    (hC : C ≠ [] ∧ (∀ c ∈ C, c ≠ 'i' ∧ c ≠ '\n') ∧
      ∀ c, C.head? = some c → isSpaceCh c = false)
    (hD : D ≠ [] ∧ ∀ c ∈ D, isNumCh c = true)
    (hsuf : sufOk suf) :
    ((∀ l ∈ lines, lineMatch l = none) ↔ parse_benchmark_output lines = some ⟨none, []⟩)
    ∧ lineMatch (String.mk (A ++ B ++ C ++ ips_literal ++ D ++ sufChars suf ++ ['/', 's'])) =
        some (String.mk A, String.mk D, suf)
    ∧ (multiplier (some 'T') = 1000000 ∧ multiplier (some 'G') = 1000 ∧
        multiplier (some 'M') = 1 ∧ multiplier (some 'k') = 1 / 1000 ∧
        multiplier none = 1 / 1000000)
    ∧ (∀ (l n ds : String) (sf : Option Char), lineMatch l = some (n, ds, sf) →
        sufOk sf ∧ ∀ (v : Rat) (t : List (String × Rat)), pyFloat ds.data = some v →
          tempStep (some t) l = some (updateA t n (v * multiplier sf)))
    ∧ ((matchedNames lines).Nodup → ∀ r, parse_benchmark_output lines = some r →
        r.measurements.map Measurement.name = matchedNames lines)
    ∧ (matchedNames lines).length = (lines.filter (fun l => (lineMatch l).isSome)).length := by
  refine ⟨?_, ?_, ?_, ?_, ?_, matchedNames_length lines⟩
  · constructor
    · intro h
      exact (parse_empty_iff lines).mp (fun l hl => Option.map_eq_none'.mp (h l hl))
    · intro hp l hl
      have hcl := (parse_empty_iff lines).mpr hp l hl
      unfold lineMatch
      rw [hcl]
      rfl
  · have hs := lineMatchCore_structured A B C D suf hA hB hC hD hsuf
    have hdata : (String.mk (A ++ B ++ C ++ ips_literal ++ D ++ sufChars suf ++
        ['/', 's'])).data = A ++ B ++ C ++ ips_literal ++ D ++ sufChars suf ++ ['/', 's'] := rfl
    unfold lineMatch
    rw [hdata, hs]
    rfl
  · exact ⟨rfl, rfl, rfl, rfl, rfl⟩
  · intro l n ds sf hmatch
    unfold lineMatch at hmatch
    cases hcore : lineMatchCore l.data with
    | none =>
      rw [hcore] at hmatch
      exact absurd hmatch (by simp)
    | some x =>
      obtain ⟨cn, cds, csf⟩ := x
      rw [hcore] at hmatch
      simp only [Option.map_some', Option.some_inj, Prod.mk.injEq] at hmatch
      obtain ⟨hn, hds, hsf⟩ := hmatch
      subst hn
      subst hds
      subst hsf
      refine ⟨lineMatchCore_sufOk l.data cn cds csf hcore, ?_⟩
      intro v t hv
      have hdseq : (String.mk cds).data = cds := rfl
      rw [hdseq] at hv
      simp only [tempStep, hcore, hv]
  · intro hnd r hr
    exact parse_names lines r hr hnd

/-- Witness for C2 at a concrete structured line and line list. -/
theorem C2_parse_benchmark_output_witness :
    lineMatch (String.mk ("bm_a".data ++ " ".data ++ "10 ns ".data ++ ips_literal ++
      "4".data ++ sufChars (some 'M') ++ ['/', 's'])) =
      some (String.mk "bm_a".data, String.mk "4".data, some 'M') :=
  (C2_parse_benchmark_output ["bm_a 10 ns items_per_second=4M/s"] "bm_a".data " ".data
    "10 ns ".data "4".data (some 'M')
    ⟨by decide, by decide⟩
    ⟨by decide, by decide⟩
    ⟨by decide, by decide, by intro c hc; cases hc; decide⟩
    ⟨by decide, by decide⟩
    (Or.inr (Or.inr (Or.inl rfl)))).2.1

/-! ### Claim C7: summary statistics and ratios of `parse_benchmark_output` -/

theorem le_foldl_max : ∀ (l : List Rat) (a : Rat), a ≤ l.foldl max a
  | [], a => le_refl a
  | c :: t, a => le_trans (le_max_left a c) (le_foldl_max t (max a c))

theorem mem_le_foldl_max : ∀ (l : List Rat) (a : Rat) (v : Rat), v ∈ l → v ≤ l.foldl max a
  | [], _, _, hv => by simp at hv
  | c :: t, a, v, hv => by
    rcases List.mem_cons.mp hv with rfl | hv'
    · exact le_trans (le_max_right a v) (le_foldl_max t (max a v))
    · exact mem_le_foldl_max t (max a c) v hv'

theorem foldl_max_mem : ∀ (l : List Rat) (a : Rat), l.foldl max a = a ∨ l.foldl max a ∈ l
  | [], a => Or.inl rfl
  | c :: t, a => by
    rcases foldl_max_mem t (max a c) with h | h
    · rcases max_choice a c with hm | hm
      · exact Or.inl (by rw [List.foldl_cons, h, hm])
      · exact Or.inr (by rw [List.foldl_cons, h, hm]; exact List.mem_cons_self c t)
    · exact Or.inr (List.mem_cons_of_mem c h)

theorem foldl_min_le : ∀ (l : List Rat) (a : Rat), l.foldl min a ≤ a
  | [], a => le_refl a
  | c :: t, a => le_trans (foldl_min_le t (min a c)) (min_le_left a c)

theorem foldl_min_le_mem : ∀ (l : List Rat) (a : Rat) (v : Rat), v ∈ l → l.foldl min a ≤ v
  | [], _, _, hv => by simp at hv
  | c :: t, a, v, hv => by
    rcases List.mem_cons.mp hv with rfl | hv'
    · exact le_trans (foldl_min_le t (min a v)) (min_le_right a v)
    · exact foldl_min_le_mem t (min a c) v hv'

theorem foldl_min_mem : ∀ (l : List Rat) (a : Rat), l.foldl min a = a ∨ l.foldl min a ∈ l
  | [], a => Or.inl rfl
  | c :: t, a => by
    rcases foldl_min_mem t (min a c) with h | h
    · rcases min_choice a c with hm | hm
      · exact Or.inl (by rw [List.foldl_cons, h, hm])
      · exact Or.inr (by rw [List.foldl_cons, h, hm]; exact List.mem_cons_self c t)
    · exact Or.inr (List.mem_cons_of_mem c h)

theorem pyFloat_nonneg (l : List Char) (v : Rat) (h : pyFloat l = some v) : 0 ≤ v := by
  unfold pyFloat at h
  split at h
  · simp only [Option.some_inj] at h
    subst h
    unfold ratOfNumChars
    have h1 : (0 : Rat) ≤ (natOfDigits (l.takeWhile (· != '.')) : Rat) := by positivity
    have h2 : (0 : Rat) ≤ (natOfDigits ((l.dropWhile (· != '.')).drop 1) : Rat) /
        (10 : Rat) ^ ((l.dropWhile (· != '.')).drop 1).length := by positivity
    exact add_nonneg h1 h2
  · exact absurd h (by simp)

theorem multiplier_nonneg (s : Option Char) : 0 ≤ multiplier s := by
  unfold multiplier
  split <;> norm_num

theorem buildTemp_nonneg :
    ∀ (ls : List String) (t0 : List (String × Rat)), (∀ p ∈ t0, 0 ≤ p.2) →
      ∀ t, ls.foldl tempStep (some t0) = some t → ∀ p ∈ t, 0 ≤ p.2
  | [], t0, h0, t, ht => by
    simp only [List.foldl_nil, Option.some_inj] at ht
    subst ht
    exact h0
  | l :: ls, t0, h0, t, ht => by
    rw [List.foldl_cons] at ht
    cases hm : lineMatchCore l.data with
    | none =>
      rw [show tempStep (some t0) l = some t0 by simp only [tempStep, hm]] at ht
      exact buildTemp_nonneg ls t0 h0 t ht
    | some x =>
      obtain ⟨n, ds, sf⟩ := x
      cases hf : pyFloat ds with
      | none =>
        rw [show tempStep (some t0) l = none by simp only [tempStep, hm, hf],
          foldl_tempStep_none] at ht
        exact absurd ht (by simp)
      | some v =>
        rw [show tempStep (some t0) l = some (updateA t0 (String.mk n) (v * multiplier sf))
          by simp only [tempStep, hm, hf]] at ht
        refine buildTemp_nonneg ls _ ?_ t ht
        intro p hp
        rcases mem_updateA t0 _ _ p hp with h | h
        · rw [h]
          exact mul_nonneg (pyFloat_nonneg ds v hf) (multiplier_nonneg sf)
        · exact h0 p h

theorem pyRound4_nonneg (x : Rat) (h : 0 ≤ x) : 0 ≤ pyRound4 x := by
  unfold pyRound4
  have hy : (0 : Rat) ≤ x * 10000 := by positivity
  have hn : (0 : Int) ≤ ⌊x * 10000⌋ := Int.floor_nonneg.mpr hy
  split
  · positivity
  · split
    · have : (0 : Int) ≤ ⌊x * 10000⌋ + 1 := by omega
      positivity
    · split
      · positivity
      · have : (0 : Int) ≤ ⌊x * 10000⌋ + 1 := by omega
        positivity

theorem pyRound4_le_one (x : Rat) (h : x ≤ 1) : pyRound4 x ≤ 1 := by
  unfold pyRound4
  have hy : x * 10000 ≤ 10000 := by nlinarith
  have hn : ⌊x * 10000⌋ ≤ 10000 := by
    have := Int.floor_le_floor (α := Rat) hy
    simpa using this
  have hdiv : ∀ r : Int, r ≤ 10000 → (r : Rat) / 10000 ≤ 1 := by
    intro r hr
    rw [div_le_one (by norm_num)]
    exact_mod_cast le_trans (Int.cast_le.mpr hr) (by norm_num)
  split
  · exact hdiv _ hn
  · rename_i h2
    have h2' : (1 : Rat) / 2 ≤ x * 10000 - ⌊x * 10000⌋ := not_lt.mp h2
    have hlt : (⌊x * 10000⌋ : Rat) < x * 10000 := by linarith
    have hn' : ⌊x * 10000⌋ < 10000 := by
      have hcast : (⌊x * 10000⌋ : Rat) < 10000 := lt_of_lt_of_le hlt hy
      exact_mod_cast hcast
    split
    · exact hdiv _ (by omega)
    · split
      · exact hdiv _ hn
      · exact hdiv _ (by omega)

theorem pyRound4_one : pyRound4 1 = 1 := by
  unfold pyRound4
  rw [show (1 : Rat) * 10000 = ((10000 : Int) : Rat) by norm_num, Int.floor_intCast]
  norm_num

/-- C7: whenever `parse_benchmark_output` returns a non-empty result (its
summary is present), `max_Mps` is the maximum and `min_Mps` the minimum of
the measured `value_Mps` values, every ratio equals
`round(value / max, 4)` (`0.0` when `max <= 0`), and when the maximum is
positive each ratio lies in `[0, 1]` with the maximal measurement having
ratio `1`. -/
theorem C7_summary_and_ratios (lines : List String) (r : ParsedBench) (mx mn : Rat)
    (hp : parse_benchmark_output lines = some r) (hs : r.summary = some (mx, mn)) :
    (∀ m ∈ r.measurements, m.value_Mps ≤ mx ∧ mn ≤ m.value_Mps)
    ∧ (∃ m ∈ r.measurements, m.value_Mps = mx)
    ∧ (∃ m ∈ r.measurements, m.value_Mps = mn)
    ∧ (∀ m ∈ r.measurements, m.ratio = pyRound4 (if 0 < mx then m.value_Mps / mx else 0))
    ∧ (0 < mx → ∀ m ∈ r.measurements, 0 ≤ m.ratio ∧ m.ratio ≤ 1 ∧
        (m.value_Mps = mx → m.ratio = 1)) := by
  unfold parse_benchmark_output at hp
  cases hb : buildTemp lines with
  | none =>
    rw [hb] at hp
    exact absurd hp (by simp)
  | some t =>
    rw [hb] at hp
    cases t with
    | nil =>
      simp only [Option.some_inj] at hp
      subst hp
      simp at hs
    | cons p0 rest =>
      obtain ⟨n, v⟩ := p0
      simp only [Option.some_inj] at hp
      subst hp
      simp only [Option.some_inj, Prod.mk.injEq] at hs
      obtain ⟨hmx, hmn⟩ := hs
      subst hmx
      subst hmn
      have hnonneg : ∀ p ∈ (n, v) :: rest, (0 : Rat) ≤ p.2 :=
        buildTemp_nonneg lines [] (by simp) _ hb
      set vals : List Rat := rest.map Prod.snd with hvals
      set mxv : Rat := vals.foldl max v with hmxv
      set mnv : Rat := vals.foldl min v with hmnv
      have hvmem : ∀ m ∈ ((n, v) :: rest).map (fun p =>
          (⟨p.1, p.2, pyRound4 (if 0 < mxv then p.2 / mxv else 0)⟩ : Measurement)),
          ∃ p ∈ (n, v) :: rest, m = ⟨p.1, p.2, pyRound4 (if 0 < mxv then p.2 / mxv else 0)⟩ := by
        intro m hm
        obtain ⟨p, hp1, hp2⟩ := List.mem_map.mp hm
        exact ⟨p, hp1, hp2.symm⟩
      have hval_le : ∀ p ∈ (n, v) :: rest, p.2 ≤ mxv := by
        intro p hp
        rcases List.mem_cons.mp hp with rfl | hp'
        · exact le_foldl_max vals v
        · exact mem_le_foldl_max vals v p.2 (List.mem_map.mpr ⟨p, hp', rfl⟩)
      have hval_ge : ∀ p ∈ (n, v) :: rest, mnv ≤ p.2 := by
        intro p hp
        rcases List.mem_cons.mp hp with rfl | hp'
        · exact foldl_min_le vals v
        · exact foldl_min_le_mem vals v p.2 (List.mem_map.mpr ⟨p, hp', rfl⟩)
      refine ⟨?_, ?_, ?_, ?_, ?_⟩
      · intro m hm
        obtain ⟨p, hp1, rfl⟩ := hvmem m hm
        exact ⟨hval_le p hp1, hval_ge p hp1⟩
      · rcases foldl_max_mem vals v with h | h
        · exact ⟨⟨n, v, pyRound4 (if 0 < mxv then v / mxv else 0)⟩,
            List.mem_map.mpr ⟨(n, v), List.mem_cons_self _ _, rfl⟩, h.symm ▸ rfl⟩
        · obtain ⟨p, hp1, hp2⟩ := List.mem_map.mp h
          exact ⟨⟨p.1, p.2, pyRound4 (if 0 < mxv then p.2 / mxv else 0)⟩,
            List.mem_map.mpr ⟨p, List.mem_cons_of_mem _ hp1, rfl⟩, hp2⟩
      · rcases foldl_min_mem vals v with h | h
        · exact ⟨⟨n, v, pyRound4 (if 0 < mxv then v / mxv else 0)⟩,
            List.mem_map.mpr ⟨(n, v), List.mem_cons_self _ _, rfl⟩, h.symm ▸ rfl⟩
        · obtain ⟨p, hp1, hp2⟩ := List.mem_map.mp h
          exact ⟨⟨p.1, p.2, pyRound4 (if 0 < mxv then p.2 / mxv else 0)⟩,
            List.mem_map.mpr ⟨p, List.mem_cons_of_mem _ hp1, rfl⟩, hp2⟩
      · intro m hm
        obtain ⟨p, hp1, rfl⟩ := hvmem m hm
        rfl
      · intro hpos m hm
        obtain ⟨p, hp1, rfl⟩ := hvmem m hm
        have h0 : (0 : Rat) ≤ p.2 := hnonneg p hp1
        have hle : p.2 ≤ mxv := hval_le p hp1
        have hratio : (0 : Rat) ≤ p.2 / mxv ∧ p.2 / mxv ≤ 1 :=
          ⟨div_nonneg h0 (le_of_lt hpos), (div_le_one hpos).mpr hle⟩
        refine ⟨?_, ?_, ?_⟩
        · simp only [if_pos hpos]
          exact pyRound4_nonneg _ hratio.1
        · simp only [if_pos hpos]
          exact pyRound4_le_one _ hratio.2
        · intro hvm
          simp only at hvm
          simp only [if_pos hpos, hvm, div_self (ne_of_gt hpos)]
          exact pyRound4_one

/-- Concrete stdout used in the C7 witness. -/
def demoLines : List String := ["bm_a 10 ns items_per_second=4M/s"]

/-- Result of `parse_benchmark_output` on `demoLines`. -/
def demoParsed : ParsedBench := ⟨some (4, 4), [⟨"bm_a", 4, 1⟩]⟩

theorem parse_demoLines : parse_benchmark_output demoLines = some demoParsed := by
  have hm1 : lineMatchCore ("bm_a 10 ns items_per_second=4M/s" : String).data =
      some ("bm_a".data, "4".data, some 'M') := by decide
  have hrat : ratOfNumChars "4".data = 4 := by
    unfold ratOfNumChars
    rw [show ("4".data.takeWhile (· != '.')) = "4".data from by decide,
      show (("4".data.dropWhile (· != '.')).drop 1) = ([] : List Char) from by decide,
      show natOfDigits "4".data = 4 from by decide]
    norm_num [natOfDigits]
  have hf1 : pyFloat "4".data = some 4 := by
    unfold pyFloat
    rw [if_pos ⟨by decide, by decide⟩, hrat]
  have hstep : tempStep (some []) "bm_a 10 ns items_per_second=4M/s" =
      some [("bm_a", (4 : Rat) * multiplier (some 'M'))] := by
    simp only [tempStep, hm1, hf1]
    rfl
  have hv : (4 : Rat) * multiplier (some 'M') = 4 := by
    rw [show multiplier (some 'M') = (1 : Rat) from rfl]
    ring
  have hbt : buildTemp demoLines = some [("bm_a", (4 : Rat))] := by
    unfold buildTemp demoLines
    rw [List.foldl_cons, hstep, List.foldl_nil, hv]
  unfold parse_benchmark_output
  rw [hbt]
  have hone : pyRound4 (if (0 : Rat) < 4 then (4 : Rat) / 4 else 0) = 1 := by
    rw [if_pos (by norm_num), show (4 : Rat) / 4 = 1 by norm_num]
    exact pyRound4_one
  simp only [List.map_nil, List.foldl_nil, List.map_cons]
  rw [hone]
  rfl

/-- Witness for C7 on `demoLines`: the single measurement attains the
maximum. -/
theorem C7_summary_and_ratios_witness :
    ∃ m ∈ demoParsed.measurements, m.value_Mps = 4 :=
  (C7_summary_and_ratios demoLines demoParsed 4 4 parse_demoLines rfl).2.1

/-! ### `run_experiment.py`: child-process environment (claim C3)

Source: `run_single_benchmark` lines 246-255 (parent environment copy, then
`JACOBI_BENCHMARK_EVENTS_FILE`, then the per-binary extra variables, whose
values `main` has already stringified), and `main` lines 377-398 (the range
variable is added to a copy of the configured per-binary env exactly when
the binary type is `"range"`; `"full"` and unknown types add nothing). -/

/-- Name of the data-file environment variable. -/
def JACOBI_FILE_KEY : String := "JACOBI_BENCHMARK_EVENTS_FILE"

/-- Name of the range environment variable. -/
def JACOBI_RANGE_KEY : String := "JACOBI_BENCHMARK_EVENTS_RANGE"

/-- Environment passed to the benchmark subprocess. -/
def childEnv (parent : List (String × String)) (data_file : String)
    (extra : List (String × String)) : List (String × String) :=
  extra.foldl (fun e kv => updateA e kv.1 kv.2) (updateA parent JACOBI_FILE_KEY data_file)

/-- Per-binary environment prepared in `main` before the run. -/
def currentRunEnv (bin_type : String) (bin_env : List (String × String))
    (file_size : Nat) : List (String × String) :=
  if bin_type = "range" then
    updateA bin_env JACOBI_RANGE_KEY (calculate_range_env file_size)
  else bin_env

theorem not_mem_keys_of_lookupA_none {α : Type} :
    ∀ (l : List (String × α)) (k : String), lookupA l k = none → k ∉ l.map Prod.fst
  | [], _, _ => by simp
  | (a, b) :: t, k, h => by
    simp only [lookupA] at h
    by_cases hk : a = k
    · rw [if_pos hk] at h
      exact absurd h (by simp)
    · rw [if_neg hk] at h
      simp only [List.map_cons, List.mem_cons]
      push_neg
      exact ⟨fun hh => hk hh.symm, not_mem_keys_of_lookupA_none t k h⟩

theorem lookupA_append {α : Type} :
    ∀ (l1 l2 : List (String × α)) (k : String),
      lookupA (l1 ++ l2) k =
        match lookupA l1 k with
        | some v => some v
        | none => lookupA l2 k
  | [], l2, k => rfl
  | (a, b) :: t, l2, k => by
    simp only [List.cons_append, lookupA]
    by_cases hk : a = k
    · rw [if_pos hk, if_pos hk]
    · rw [if_neg hk, if_neg hk]
      exact lookupA_append t l2 k

theorem lookupA_foldl_updateA {α : Type} :
    ∀ (extra base : List (String × α)) (k : String), (extra.map Prod.fst).Nodup →
      lookupA (extra.foldl (fun e kv => updateA e kv.1 kv.2) base) k =
        match lookupA extra k with
        | some v => some v
        | none => lookupA base k
  | [], base, k, _ => rfl
  | (a, b) :: t, base, k, hnd => by
    rw [List.foldl_cons]
    rw [List.map_cons] at hnd
    have hnd0 := List.nodup_cons.mp hnd
    have hik := lookupA_foldl_updateA t (updateA base a b) k hnd0.2
    by_cases hk : a = k
    · subst hk
      have hat : lookupA t a = none :=
        lookupA_eq_none_of_not_mem t a hnd0.1
      rw [hik, hat]
      simp [lookupA, lookupA_updateA_self]
    · rw [hik]
      have hcons : lookupA ((a, b) :: t) k = lookupA t k := by
        simp [lookupA, hk]
      rw [hcons]
      cases lookupA t k with
      | some v => rfl
      | none =>
        simp only []
        exact lookupA_updateA_ne base a k b (fun hh => hk hh.symm)

/-- C3: the child environment is the parent environment with
`JACOBI_BENCHMARK_EVENTS_FILE` set to the data file plus the per-binary
entries, and `JACOBI_BENCHMARK_EVENTS_RANGE` is set (to the computed range)
iff the binary type is `"range"`; for `"full"` or any unknown type it is
absent.  The hypotheses state that the configured entries and the parent
environment do not themselves define these two variables (otherwise the
configured or inherited value survives untouched). -/
theorem C3_child_environment (parent bin_env : List (String × String))
    (bin_type data_file : String) (file_size : Nat)
    (hnd : (bin_env.map Prod.fst).Nodup)
    (hbf : lookupA bin_env JACOBI_FILE_KEY = none)
    (hbr : lookupA bin_env JACOBI_RANGE_KEY = none)
    (hpr : lookupA parent JACOBI_RANGE_KEY = none) :
    (lookupA (childEnv parent data_file (currentRunEnv bin_type bin_env file_size))
        JACOBI_FILE_KEY = some data_file)
    ∧ (lookupA (childEnv parent data_file (currentRunEnv bin_type bin_env file_size))
        JACOBI_RANGE_KEY =
          if bin_type = "range" then some (calculate_range_env file_size) else none)
    ∧ (∀ k v, lookupA bin_env k = some v →
        lookupA (childEnv parent data_file (currentRunEnv bin_type bin_env file_size)) k =
          some v)
    ∧ (∀ k, k ≠ JACOBI_FILE_KEY → k ≠ JACOBI_RANGE_KEY → lookupA bin_env k = none →
        lookupA (childEnv parent data_file (currentRunEnv bin_type bin_env file_size)) k =
          lookupA parent k) := by
  have hkeyne : JACOBI_FILE_KEY ≠ JACOBI_RANGE_KEY := by decide
  by_cases htype : bin_type = "range"
  · have hext : currentRunEnv bin_type bin_env file_size =
        bin_env ++ [(JACOBI_RANGE_KEY, calculate_range_env file_size)] := by
      unfold currentRunEnv
      rw [if_pos htype]
      exact updateA_of_lookup_none bin_env _ _ hbr
    have hndext : ((bin_env ++ [(JACOBI_RANGE_KEY, calculate_range_env file_size)]).map
        Prod.fst).Nodup := by
      rw [List.map_append]
      refine List.nodup_append.mpr ⟨hnd, by simp, ?_⟩
      intro a ha hb
      simp only [List.map_cons, List.map_nil, List.mem_singleton] at hb
      subst hb
      exact not_mem_keys_of_lookupA_none bin_env _ hbr ha
    refine ⟨?_, ?_, ?_, ?_⟩
    · unfold childEnv
      rw [hext, lookupA_foldl_updateA _ _ _ hndext, lookupA_append, hbf]
      simp only [lookupA]
      rw [if_neg (fun hh => hkeyne hh.symm)]
      exact lookupA_updateA_self parent _ _
    · unfold childEnv
      rw [hext, lookupA_foldl_updateA _ _ _ hndext, lookupA_append, hbr, if_pos htype]
      simp [lookupA]
    · intro k v hkv
      unfold childEnv
      rw [hext, lookupA_foldl_updateA _ _ _ hndext, lookupA_append, hkv]
    · intro k hkf hkr hknone
      unfold childEnv
      rw [hext, lookupA_foldl_updateA _ _ _ hndext, lookupA_append, hknone]
      simp only [lookupA]
      rw [if_neg (fun hh => hkr hh.symm)]
      exact lookupA_updateA_ne parent _ _ _ hkf
  · have hext : currentRunEnv bin_type bin_env file_size = bin_env := by
      unfold currentRunEnv
      rw [if_neg htype]
    refine ⟨?_, ?_, ?_, ?_⟩
    · unfold childEnv
      rw [hext, lookupA_foldl_updateA _ _ _ hnd, hbf]
      exact lookupA_updateA_self parent _ _
    · unfold childEnv
      rw [hext, lookupA_foldl_updateA _ _ _ hnd, hbr, if_neg htype]
      rw [lookupA_updateA_ne parent _ _ _ (fun hh => hkeyne hh.symm)]
      exact hpr
    · intro k v hkv
      unfold childEnv
      rw [hext, lookupA_foldl_updateA _ _ _ hnd, hkv]
    · intro k hkf hkr hknone
      unfold childEnv
      rw [hext, lookupA_foldl_updateA _ _ _ hnd, hknone]
      exact lookupA_updateA_ne parent _ _ _ hkf

/-- Witness for C3: a concrete range-typed run receives the file variable. -/
theorem C3_child_environment_witness :
    lookupA (childEnv [("PATH", "/bin")] "x.jacobi_data"
        (currentRunEnv "range" [("OMP", "1")] 3200)) JACOBI_FILE_KEY =
      some "x.jacobi_data" :=
  (C3_child_environment [("PATH", "/bin")] [("OMP", "1")] "range" "x.jacobi_data" 3200
    (by decide) (by decide) (by decide) (by decide)).1

/-! ### `run_experiment.py`: failure handling of a single run (claim C4)

Source: `run_single_benchmark` lines 284-306.  `subprocess.run` with
`check=True` raises `CalledProcessError` on a non-zero exit code, and a
missing binary raises `FileNotFoundError`; both are caught, a diagnostic
line is printed, and the empty dict is returned.  The model carries the
printed diagnostics in the first component; the summary command-line
injection on success is irrelevant to the claim and omitted. -/

/-- Outcome of the subprocess call. -/
inductive ProcOutcome where
  | success (stdoutLines : List String)
  | exitNonzero (cmd : String)
  | notFound (path : String)

/-- Diagnostics printed and value returned by `run_single_benchmark`. -/
def run_single_benchmark (proc : ProcOutcome) : List String × Option ParsedBench :=
  match proc with
  | .success ls => ([], parse_benchmark_output ls)
  | .exitNonzero cmd => (["  [!] Error running command: " ++ cmd], some ⟨none, []⟩)
  | .notFound path => (["  [!] Command or Binary not found. Path: " ++ path], some ⟨none, []⟩)

/-- C4: a non-zero exit code or a missing binary/command always produces a
diagnostic line and an empty result dict (no partial measurements): the
failure is surfaced, never silently swallowed. -/
theorem C4_failures_surface (cmd path : String) :
    ((run_single_benchmark (.exitNonzero cmd)).1 ≠ []
      ∧ (run_single_benchmark (.exitNonzero cmd)).2 = some ⟨none, []⟩)
    ∧ ((run_single_benchmark (.notFound path)).1 ≠ []
      ∧ (run_single_benchmark (.notFound path)).2 = some ⟨none, []⟩) :=
  ⟨⟨by simp [run_single_benchmark], rfl⟩, ⟨by simp [run_single_benchmark], rfl⟩⟩

/-! ### `run_experiment.py`: matrix-mode aggregated summary (claim C8)

Source: `main` lines 413-463.  In matrix mode `max_mps` starts at `0.0` and
is raised through `if max_mps < v`, while `min_mps` starts at `0.0` and is
only ever lowered through `min(min_mps, v)`. -/

/-- The `(max_mps, min_mps)` aggregation loop over the measured values, in
encounter order. -/
def matrixSummary (vs : List Rat) : Rat × Rat :=
  vs.foldl (fun p v => (if p.1 < v then v else p.1, min p.2 v)) (0, 0)

theorem foldl_pair_split :
    ∀ (vs : List Rat) (a b : Rat),
      vs.foldl (fun p v => (if p.1 < v then v else p.1, min p.2 v)) (a, b) =
        (vs.foldl (fun x v => if x < v then v else x) a, vs.foldl min b)
  | [], a, b => rfl
  | c :: t, a, b => by
    simp only [List.foldl_cons]
    exact foldl_pair_split t _ _

theorem if_lt_eq_max (a v : Rat) : (if a < v then v else a) = max a v := by
  rcases lt_or_ge a v with h | h
  · rw [if_pos h, max_eq_right (le_of_lt h)]
  · rw [if_neg (not_lt.mpr h), max_eq_left h]

theorem foldl_iflt_eq_foldl_max :
    ∀ (vs : List Rat) (a : Rat),
      vs.foldl (fun x v => if x < v then v else x) a = vs.foldl max a
  | [], _ => rfl
  | c :: t, a => by
    simp only [List.foldl_cons, if_lt_eq_max]

theorem foldl_min_zero :
    ∀ (vs : List Rat), (∀ v ∈ vs, 0 ≤ v) → vs.foldl min 0 = 0
  | [], _ => rfl
  | c :: t, h => by
    simp only [List.foldl_cons]
    rw [min_eq_left (h c (List.mem_cons_self c t))]
    exact foldl_min_zero t (fun v hv => h v (List.mem_cons_of_mem _ hv))

/-- C8: in matrix mode, whenever all parsed throughput values are
non-negative the aggregated `min_Mps` is exactly `0.0` — never positive and
never the smallest positive measured value — while `max_Mps` bounds every
value and is either `0` or an actually measured value. -/
theorem C8_matrix_min_stuck_at_zero (vs : List Rat) (h : ∀ v ∈ vs, 0 ≤ v) :
    (matrixSummary vs).2 = 0
    ∧ (∀ v ∈ vs, 0 < v → (matrixSummary vs).2 ≠ v)
    ∧ (∀ v ∈ vs, v ≤ (matrixSummary vs).1)
    ∧ ((matrixSummary vs).1 = 0 ∨ (matrixSummary vs).1 ∈ vs) := by
  have hsplit : matrixSummary vs = (vs.foldl max 0, vs.foldl min 0) := by
    unfold matrixSummary
    rw [foldl_pair_split, foldl_iflt_eq_foldl_max]
  rw [hsplit]
  have hmin : vs.foldl min 0 = 0 := foldl_min_zero vs h
  refine ⟨hmin, ?_, ?_, ?_⟩
  · intro v hv hpos
    rw [hmin]
    exact fun hh => absurd (hh ▸ hpos) (lt_irrefl 0)
  · intro v hv
    exact mem_le_foldl_max vs 0 v hv
  · exact foldl_max_mem vs 0

/-- Witness for C8 at the concrete value list `[2, 1]`. -/
theorem C8_matrix_min_stuck_at_zero_witness : (matrixSummary [2, 1]).2 = 0 :=
  (C8_matrix_min_stuck_at_zero [2, 1]
    (by intro v hv; simp at hv; rcases hv with rfl | rfl <;> norm_num)).1

/-! ### `results2db.py`: `validate_and_extract` (claim C5)

Source lines 13-47.  The generator walks
`results -> file -> storage -> measurements -> component` and yields one row
per `(file, storage, component)` triple; any shape violation calls
`sys.exit(message)`, which aborts the iteration (the caller's collected rows
are discarded when the process exits).  The embedding models JSON values,
the top-level parsed dict, and the generator as an `Except`: `Except.error`
is the `sys.exit` path. -/

/-- JSON values as produced by `json.load`. -/
inductive Json where
  | null
  | bool (b : Bool)
  | num (q : Rat)
  | str (s : String)
  | arr (xs : List Json)
  | obj (fields : List (String × Json))

/-- One row yielded by `validate_and_extract` (the `mps` field carries the
component's `value_Mps` JSON value verbatim). -/
structure DbRow where
  jacobi_data : String
  orders_table_storage : String
  components : String
  mps : Json

/-- Level 3 of the walk: the components of one `measurements` object. -/
def rowsOfComponents (jk sk : String) : List (String × Json) → Except String (List DbRow)
  | [] => Except.ok []
  | (ck, cv) :: rest =>
    match cv with
    | .obj cf =>
      match lookupA cf "value_Mps" with
      | some v =>
        match rowsOfComponents jk sk rest with
        | .ok rs => .ok (⟨jk, sk, ck, v⟩ :: rs)
        | .error e => .error e
      | none => .error ("Error: Component '" ++ ck ++ "' must contain 'value_Mps'.")
    | _ => .error ("Error: Component '" ++ ck ++ "' must contain 'value_Mps'.")

/-- Level 2 of the walk: the storages of one data file. -/
def rowsOfStorages (jk : String) : List (String × Json) → Except String (List DbRow)
  | [] => .ok []
  | (sk, sv) :: rest =>
    match sv with
    | .obj svf =>
      match lookupA svf "measurements" with
      | some m =>
        match m with
        | .obj ms =>
          match rowsOfComponents jk sk ms with
          | .ok rs1 =>
            match rowsOfStorages jk rest with
            | .ok rs2 => .ok (rs1 ++ rs2)
            | .error e => .error e
          | .error e => .error e
        | _ => .error ("Error: 'measurements' under '" ++ sk ++ "' must be an object.")
      | none => .error ("Error: '" ++ sk ++ "' must be an object containing 'measurements'.")
    | _ => .error ("Error: '" ++ sk ++ "' must be an object containing 'measurements'.")

/-- Level 1 of the walk: the data files of the `results` object. -/
def rowsOfResults : List (String × Json) → Except String (List DbRow)
  | [] => .ok []
  | (jk, sm) :: rest =>
    match sm with
    | .obj sfs =>
      match rowsOfStorages jk sfs with
      | .ok rs1 =>
        match rowsOfResults rest with
        | .ok rs2 => .ok (rs1 ++ rs2)
        | .error e => .error e
      | .error e => .error e
    | _ => .error ("Error: results['" ++ jk ++ "'] must be an object.")

/-- The function `validate_and_extract` on the parsed top-level JSON dict. -/
def validate_and_extract (data : List (String × Json)) : Except String (List DbRow) :=
  match lookupA data "results" with
  | none => .error "Error: Missing top-level 'results' field."
  | some r =>
    match r with
    | .obj rfs => rowsOfResults rfs
    | _ => .error "Error: 'results' must be an object."

/-- Shape of one component as required by the spec: an object containing
`value_Mps`. -/
def componentOk : Json → Bool
  | .obj cf => (lookupA cf "value_Mps").isSome
  | _ => false

/-- Shape of one storage: an object whose `measurements` member is an object
of valid components. -/
def storageOk : Json → Bool
  | .obj svf =>
    match lookupA svf "measurements" with
    | some (.obj ms) => ms.all (fun cp => componentOk cp.2)
    | _ => false
  | _ => false

/-- Shape of one data file's storage map. -/
def storagesMapOk : Json → Bool
  | .obj sfs => sfs.all (fun sp => storageOk sp.2)
  | _ => false

/-- Modelled from the spec's words: the input shape under which the claim
promises one row per triple (`results` is an object of objects with an
object `measurements` of objects each containing `value_Mps`). -/
def wellShaped (data : List (String × Json)) : Bool :=
  match lookupA data "results" with
  | some (.obj rfs) => rfs.all (fun jp => storagesMapOk jp.2)
  | _ => false

/-- The `value_Mps` member of a component (spec side; `null` default is
never used on well-shaped input). -/
def valueMpsOf : Json → Json
  | .obj cf => (lookupA cf "value_Mps").getD .null
  | _ => .null

/-- Fields of an object (spec side). -/
def objFieldsOf : Json → List (String × Json)
  | .obj fs => fs
  | _ => []

/-- The `measurements` member of a storage (spec side). -/
def measurementsOf : Json → List (String × Json)
  | .obj svf =>
    match lookupA svf "measurements" with
    | some (.obj ms) => ms
    | _ => []
  | _ => []

/-- Modelled from the spec's words: one row per
`(file, storage, component)` triple, in iteration order, carrying that
component's `value_Mps`. -/
def specRows (data : List (String × Json)) : List DbRow :=
  match lookupA data "results" with
  | some (.obj rfs) =>
    rfs.bind (fun jp =>
      (objFieldsOf jp.2).bind (fun sp =>
        (measurementsOf sp.2).map (fun cp =>
          ⟨jp.1, sp.1, cp.1, valueMpsOf cp.2⟩)))
  | _ => []

theorem rowsOfComponents_ok (jk sk : String) :
    ∀ ms : List (String × Json), (∀ cp ∈ ms, componentOk cp.2 = true) →
      rowsOfComponents jk sk ms =
        .ok (ms.map (fun cp => ⟨jk, sk, cp.1, valueMpsOf cp.2⟩))
  | [], _ => rfl
  | (ck, cv) :: rest, h => by
    have hc : componentOk cv = true := h (ck, cv) (List.mem_cons_self _ _)
    cases cv with
    | obj cf =>
      simp only [rowsOfComponents]
      cases hl : lookupA cf "value_Mps" with
      | none =>
        simp [componentOk, hl] at hc
      | some v =>
        rw [rowsOfComponents_ok jk sk rest (fun cp hcp => h cp (List.mem_cons_of_mem _ hcp))]
        simp only [List.map_cons]
        have hv : valueMpsOf (.obj cf) = v := by
          simp [valueMpsOf, hl]
        rw [hv]
    | null => exact absurd hc (by simp [componentOk])
    | bool b => exact absurd hc (by simp [componentOk])
    | num q => exact absurd hc (by simp [componentOk])
    | str s => exact absurd hc (by simp [componentOk])
    | arr xs => exact absurd hc (by simp [componentOk])

theorem rowsOfComponents_err (jk sk : String) :
    ∀ ms : List (String × Json), ¬ (∀ cp ∈ ms, componentOk cp.2 = true) →
      ∃ e, rowsOfComponents jk sk ms = .error e
  | [], h => absurd (by simp) h
  | (ck, cv) :: rest, h => by
    by_cases hc : componentOk cv = true
    · have hrest : ¬ (∀ cp ∈ rest, componentOk cp.2 = true) := by
        intro hall
        exact h (fun cp hcp => by
          rcases List.mem_cons.mp hcp with rfl | hcp'
          · exact hc
          · exact hall cp hcp')
      obtain ⟨e, he⟩ := rowsOfComponents_err jk sk rest hrest
      cases cv with
      | obj cf =>
        simp only [rowsOfComponents]
        cases hl : lookupA cf "value_Mps" with
        | none => exact ⟨_, rfl⟩
        | some v =>
          rw [he]
          exact ⟨e, rfl⟩
      | null => exact absurd hc (by simp [componentOk])
      | bool b => exact absurd hc (by simp [componentOk])
      | num q => exact absurd hc (by simp [componentOk])
      | str s => exact absurd hc (by simp [componentOk])
      | arr xs => exact absurd hc (by simp [componentOk])
    · cases cv with
      | obj cf =>
        simp only [rowsOfComponents]
        cases hl : lookupA cf "value_Mps" with
        | none => exact ⟨_, rfl⟩
        | some v =>
          simp [componentOk, hl] at hc
      | null => exact ⟨_, rfl⟩
      | bool b => exact ⟨_, rfl⟩
      | num q => exact ⟨_, rfl⟩
      | str s => exact ⟨_, rfl⟩
      | arr xs => exact ⟨_, rfl⟩

theorem rowsOfStorages_ok (jk : String) :
    ∀ sfs : List (String × Json), (∀ sp ∈ sfs, storageOk sp.2 = true) →
      rowsOfStorages jk sfs =
        .ok (sfs.bind (fun sp => (measurementsOf sp.2).map (fun cp =>
          ⟨jk, sp.1, cp.1, valueMpsOf cp.2⟩)))
  | [], _ => rfl
  | (sk, sv) :: rest, h => by
    have hs : storageOk sv = true := h (sk, sv) (List.mem_cons_self _ _)
    cases sv with
    | obj svf =>
      simp only [rowsOfStorages]
      cases hl : lookupA svf "measurements" with
      | none =>
        simp [storageOk, hl] at hs
      | some m =>
        cases m with
        | obj ms =>
          dsimp only
          have hcomp : ∀ cp ∈ ms, componentOk cp.2 = true := by
            simp only [storageOk, hl] at hs
            simpa [List.all_eq_true] using hs
          rw [rowsOfComponents_ok jk sk ms hcomp,
            rowsOfStorages_ok jk rest (fun sp hsp => h sp (List.mem_cons_of_mem _ hsp))]
          simp only [List.cons_bind]
          have hm : measurementsOf (.obj svf) = ms := by
            simp [measurementsOf, hl]
          rw [hm]
        | null => simp [storageOk, hl] at hs
        | bool b => simp [storageOk, hl] at hs
        | num q => simp [storageOk, hl] at hs
        | str s => simp [storageOk, hl] at hs
        | arr xs => simp [storageOk, hl] at hs
    | null => exact absurd hs (by simp [storageOk])
    | bool b => exact absurd hs (by simp [storageOk])
    | num q => exact absurd hs (by simp [storageOk])
    | str s => exact absurd hs (by simp [storageOk])
    | arr xs => exact absurd hs (by simp [storageOk])

theorem rowsOfStorages_err (jk : String) :
    ∀ sfs : List (String × Json), ¬ (∀ sp ∈ sfs, storageOk sp.2 = true) →
      ∃ e, rowsOfStorages jk sfs = .error e
  | [], h => absurd (by simp) h
  | (sk, sv) :: rest, h => by
    by_cases hs : storageOk sv = true
    · have hrest : ¬ (∀ sp ∈ rest, storageOk sp.2 = true) := by
        intro hall
        exact h (fun sp hsp => by
          rcases List.mem_cons.mp hsp with rfl | hsp'
          · exact hs
          · exact hall sp hsp')
      obtain ⟨e, he⟩ := rowsOfStorages_err jk rest hrest
      cases sv with
      | obj svf =>
        simp only [rowsOfStorages]
        cases hl : lookupA svf "measurements" with
        | none => exact ⟨_, rfl⟩
        | some m =>
          cases m with
          | obj ms =>
            dsimp only
            cases hrc : rowsOfComponents jk sk ms with
            | error e2 => exact ⟨e2, rfl⟩
            | ok rs1 =>
              rw [he]
              exact ⟨e, rfl⟩
          | null => exact ⟨_, rfl⟩
          | bool b => exact ⟨_, rfl⟩
          | num q => exact ⟨_, rfl⟩
          | str s => exact ⟨_, rfl⟩
          | arr xs => exact ⟨_, rfl⟩
      | null => exact ⟨_, rfl⟩
      | bool b => exact ⟨_, rfl⟩
      | num q => exact ⟨_, rfl⟩
      | str s => exact ⟨_, rfl⟩
      | arr xs => exact ⟨_, rfl⟩
    · cases sv with
      | obj svf =>
        simp only [rowsOfStorages]
        cases hl : lookupA svf "measurements" with
        | none => exact ⟨_, rfl⟩
        | some m =>
          cases m with
          | obj ms =>
            dsimp only
            have hcomp : ¬ (∀ cp ∈ ms, componentOk cp.2 = true) := by
              intro hall
              apply hs
              simp only [storageOk, hl]
              simpa [List.all_eq_true] using hall
            obtain ⟨e, he⟩ := rowsOfComponents_err jk sk ms hcomp
            rw [he]
            exact ⟨e, rfl⟩
          | null => exact ⟨_, rfl⟩
          | bool b => exact ⟨_, rfl⟩
          | num q => exact ⟨_, rfl⟩
          | str s => exact ⟨_, rfl⟩
          | arr xs => exact ⟨_, rfl⟩
      | null => exact ⟨_, rfl⟩
      | bool b => exact ⟨_, rfl⟩
      | num q => exact ⟨_, rfl⟩
      | str s => exact ⟨_, rfl⟩
      | arr xs => exact ⟨_, rfl⟩

theorem rowsOfResults_ok :
    ∀ rfs : List (String × Json), (∀ jp ∈ rfs, storagesMapOk jp.2 = true) →
      rowsOfResults rfs =
        .ok (rfs.bind (fun jp => (objFieldsOf jp.2).bind (fun sp =>
          (measurementsOf sp.2).map (fun cp => ⟨jp.1, sp.1, cp.1, valueMpsOf cp.2⟩))))
  | [], _ => rfl
  | (jk, sm) :: rest, h => by
    have hs : storagesMapOk sm = true := h (jk, sm) (List.mem_cons_self _ _)
    cases sm with
    | obj sfs =>
      simp only [rowsOfResults]
      have hst : ∀ sp ∈ sfs, storageOk sp.2 = true := by
        simp only [storagesMapOk] at hs
        simpa [List.all_eq_true] using hs
      rw [rowsOfStorages_ok jk sfs hst,
        rowsOfResults_ok rest (fun jp hjp => h jp (List.mem_cons_of_mem _ hjp))]
      simp only [List.cons_bind]
      rfl
    | null => exact absurd hs (by simp [storagesMapOk])
    | bool b => exact absurd hs (by simp [storagesMapOk])
    | num q => exact absurd hs (by simp [storagesMapOk])
    | str s => exact absurd hs (by simp [storagesMapOk])
    | arr xs => exact absurd hs (by simp [storagesMapOk])

theorem rowsOfResults_err :
    ∀ rfs : List (String × Json), ¬ (∀ jp ∈ rfs, storagesMapOk jp.2 = true) →
      ∃ e, rowsOfResults rfs = .error e
  | [], h => absurd (by simp) h
  | (jk, sm) :: rest, h => by
    by_cases hs : storagesMapOk sm = true
    · have hrest : ¬ (∀ jp ∈ rest, storagesMapOk jp.2 = true) := by
        intro hall
        exact h (fun jp hjp => by
          rcases List.mem_cons.mp hjp with rfl | hjp'
          · exact hs
          · exact hall jp hjp')
      obtain ⟨e, he⟩ := rowsOfResults_err rest hrest
      cases sm with
      | obj sfs =>
        simp only [rowsOfResults]
        cases hrs : rowsOfStorages jk sfs with
        | error e2 => exact ⟨e2, rfl⟩
        | ok rs1 =>
          rw [he]
          exact ⟨e, rfl⟩
      | null => exact ⟨_, rfl⟩
      | bool b => exact ⟨_, rfl⟩
      | num q => exact ⟨_, rfl⟩
      | str s => exact ⟨_, rfl⟩
      | arr xs => exact ⟨_, rfl⟩
    · cases sm with
      | obj sfs =>
        simp only [rowsOfResults]
        have hst : ¬ (∀ sp ∈ sfs, storageOk sp.2 = true) := by
          intro hall
          apply hs
          simp only [storagesMapOk]
          simpa [List.all_eq_true] using hall
        obtain ⟨e, he⟩ := rowsOfStorages_err jk sfs hst
        rw [he]
        exact ⟨e, rfl⟩
      | null => exact ⟨_, rfl⟩
      | bool b => exact ⟨_, rfl⟩
      | num q => exact ⟨_, rfl⟩
      | str s => exact ⟨_, rfl⟩
      | arr xs => exact ⟨_, rfl⟩

/-- C5: on input whose `results` member is an object of objects with an
object `measurements` of components each containing `value_Mps`,
`validate_and_extract` yields exactly one row per
`(file, storage, component)` triple with the claimed four fields; on any
input violating that shape at any level it exits with an error message
instead of yielding further rows. -/
theorem C5_validate_and_extract (data : List (String × Json)) :
    (wellShaped data = true → validate_and_extract data = .ok (specRows data))
    ∧ (wellShaped data = false → ∃ msg, validate_and_extract data = .error msg) := by
  constructor
  · intro h
    unfold wellShaped at h
    unfold validate_and_extract specRows
    cases hl : lookupA data "results" with
    | none =>
      rw [hl] at h
      exact absurd h (by simp)
    | some r =>
      rw [hl] at h
      cases r with
      | obj rfs =>
        dsimp only at h
        have hall : ∀ jp ∈ rfs, storagesMapOk jp.2 = true := by
          simpa [List.all_eq_true] using h
        exact rowsOfResults_ok rfs hall
      | null => exact absurd h (by simp)
      | bool b => exact absurd h (by simp)
      | num q => exact absurd h (by simp)
      | str s => exact absurd h (by simp)
      | arr xs => exact absurd h (by simp)
  · intro h
    unfold wellShaped at h
    unfold validate_and_extract
    cases hl : lookupA data "results" with
    | none => exact ⟨_, rfl⟩
    | some r =>
      rw [hl] at h
      cases r with
      | obj rfs =>
        dsimp only at h
        have hall : ¬ (∀ jp ∈ rfs, storagesMapOk jp.2 = true) := by
          intro hall2
          rw [show rfs.all (fun jp => storagesMapOk jp.2) = true by
            simpa [List.all_eq_true] using hall2] at h
          exact absurd h (by simp)
        exact rowsOfResults_err rfs hall
      | null => exact ⟨_, rfl⟩
      | bool b => exact ⟨_, rfl⟩
      | num q => exact ⟨_, rfl⟩
      | str s => exact ⟨_, rfl⟩
      | arr xs => exact ⟨_, rfl⟩

/-- Concrete well-shaped input for the C5 witness: one file, one storage,
two components. -/
def demoDbInput : List (String × Json) :=
  [("settings", .str "s"),
   ("results", .obj
     [("a.jacobi_data", .obj
       [("flat", .obj
         [("summary", .obj [("max_Mps", .num 4)]),
          ("measurements", .obj
            [("add", .obj [("value_Mps", .num 4), ("ratio", .num 1)]),
             ("cancel", .obj [("value_Mps", .num 2)])])])])])]

/-- Witness for C5: the demo input is well shaped and extraction succeeds
with exactly the rows of `specRows`. -/
theorem C5_validate_and_extract_witness :
    wellShaped demoDbInput = true ∧
      validate_and_extract demoDbInput = .ok (specRows demoDbInput) :=
  ⟨rfl, (C5_validate_and_extract demoDbInput).1 rfl⟩

/-! ### `censor_results.py`: `main` and `substitute_pattern` (claim C6)

Source lines 15-17 and 38-55.  The script loads the benchmark JSON, renames
every key of `results` by `compiled_pattern.sub(f"{counter:03d}", name)` with
a counter starting at 1 in iteration order, deep-copies each approach and
pops `command_lines` and `command_line` from its `summary`, then writes the
document back with the `results` member replaced.  The user-supplied
compiled regex is abstracted as the substitution function `sub`
(`sub replacement input`); `none` models the uncaught `KeyError` /
`AttributeError` raised when `results` or a `summary` is missing or not an
object. -/

/-- Python `f"{number:03d}"` for a natural number. -/
def format3 (n : Nat) : String :=
  if (toString n).length < 3 then
    String.mk (List.replicate (3 - (toString n).length) '0') ++ toString n
  else toString n

/-- The function `substitute_pattern`: formats the counter and substitutes
it for every match of the compiled pattern in `s`. -/
def substitute_pattern (sub : String → String → String) (s : String) (number : Nat) :
    String :=
  sub (format3 number) s

/-- The two `pop` calls on an approach's summary dict. -/
def censorSummaryFields (sfs : List (String × Json)) : List (String × Json) :=
  removeA (removeA sfs "command_lines") "command_line"

/-- Censoring of one approach: deep copy with the summary's command lines
removed; `none` when the approach or its summary is not an object with a
`summary` member (Python raises there). -/
def censorApproach : Json → Option Json
  | .obj fs =>
    match lookupA fs "summary" with
    | some (.obj sfs) => some (.obj (updateA fs "summary" (.obj (censorSummaryFields sfs))))
    | _ => none
  | _ => none

/-- Censoring of the approaches of one data file, in order. -/
def censorApproachList : List (String × Json) → Option (List (String × Json))
  | [] => some []
  | (ak, av) :: t =>
    match censorApproach av, censorApproachList t with
    | some av', some t' => some ((ak, av') :: t')
    | _, _ => none

/-- Censoring of one data file's details object. -/
def censorDetails : Json → Option (List (String × Json))
  | .obj afs => censorApproachList afs
  | _ => none

/-- The renaming loop over `results.items()` with the 1-based counter. -/
def censorEntries (sub : String → String → String) :
    List (String × Json) → Nat → Option (List (String × Json))
  | [], _ => some []
  | (jk, details) :: rest, counter =>
    match censorDetails details, censorEntries sub rest (counter + 1) with
    | some nd, some tl =>
      some ((substitute_pattern sub jk (counter + 1), .obj nd) :: tl)
    | _, _ => none

/-- The whole transformation of `main`: the censored entries are written
into a fresh dict (`new_reults[censored_name] = ...`, collapsing duplicate
censored names) and the document's `results` member is replaced. -/
def censor_results_main (sub : String → String → String)
    (benchmark : List (String × Json)) : Option (List (String × Json)) :=
  match lookupA benchmark "results" with
  | some (.obj rfs) =>
    (censorEntries sub rfs 0).map (fun entries =>
      updateA benchmark "results"
        (.obj (entries.foldl (fun acc kv => updateA acc kv.1 kv.2) [])))
  | _ => none

/-- Modelled from the spec's words: a summary with `command_line` and
`command_lines` removed and everything else unchanged. -/
def censorSummarySpec : Json → Json
  | .obj sfs => .obj (sfs.filter (fun q => q.1 != "command_line" && q.1 != "command_lines"))
  | j => j

/-- Modelled from the spec's words: an approach with only its summary
rewritten. -/
def censorApproachSpec : Json → Json
  | .obj fs => .obj (fs.map (fun q => if q.1 = "summary" then (q.1, censorSummarySpec q.2) else q))
  | j => j

/-- Modelled from the spec's words: a details object with every approach
censored. -/
def censorDetailsSpec : Json → Json
  | .obj afs => .obj (afs.map (fun p => (p.1, censorApproachSpec p.2)))
  | j => j

/-- Modelled from the spec's words: the renamed and censored `results`
entries, counter `i` running from 1 in iteration order. -/
def censorSpecList (sub : String → String → String) (rfs : List (String × Json)) :
    List (String × Json) :=
  List.zipWith (fun (p : String × Json) i => (sub (format3 i) p.1, censorDetailsSpec p.2))
    rfs (List.range' 1 rfs.length)

/-- Shape required of one approach: an object with an object `summary` and
duplicate-free keys (Python dicts). -/
def approachOk (j : Json) : Bool :=
  match j with
  | .obj fs =>
    (match lookupA fs "summary" with
     | some (.obj _) => true
     | _ => false) && decide (fs.map Prod.fst).Nodup
  | _ => false

/-- Shape required of one data file's details. -/
def approachMapOk (j : Json) : Bool :=
  match j with
  | .obj afs => afs.all (fun p => approachOk p.2)
  | _ => false

theorem removeA_removeA (sfs : List (String × Json)) :
    removeA (removeA sfs "command_lines") "command_line" =
      sfs.filter (fun q => q.1 != "command_line" && q.1 != "command_lines") := by
  unfold removeA
  rw [List.filter_filter]

theorem map_if_id {β : Type} (k : String) (f : β → β) :
    ∀ (t : List (String × β)), (∀ q ∈ t, q.1 ≠ k) →
      t.map (fun q => if q.1 = k then (q.1, f q.2) else q) = t
  | [], _ => rfl
  | (a, b) :: t, h => by
    simp only [List.map_cons]
    rw [if_neg (h (a, b) (List.mem_cons_self _ _)),
      map_if_id k f t (fun q hq => h q (List.mem_cons_of_mem _ hq))]

theorem updateA_eq_map_if {β : Type} (k : String) (f : β → β) :
    ∀ (fs : List (String × β)) (sv : β), (fs.map Prod.fst).Nodup →
      lookupA fs k = some sv →
      updateA fs k (f sv) = fs.map (fun q => if q.1 = k then (q.1, f q.2) else q)
  | [], sv, _, hl => by simp [lookupA] at hl
  | (a, b) :: t, sv, hnd, hl => by
    rw [List.map_cons] at hnd
    have hnd0 := List.nodup_cons.mp hnd
    simp only [lookupA] at hl
    by_cases hk : a = k
    · rw [if_pos hk] at hl
      simp only [Option.some_inj] at hl
      subst hl
      simp only [updateA, if_pos hk, List.map_cons, if_pos hk]
      subst hk
      rw [map_if_id a f t (fun q hq hkq => hnd0.1 (hkq ▸ List.mem_map.mpr ⟨q, hq, rfl⟩))]
    · rw [if_neg hk] at hl
      simp only [updateA, if_neg hk, List.map_cons, if_neg hk]
      rw [updateA_eq_map_if k f t sv hnd0.2 hl]

theorem censorApproach_spec (j : Json) (h : approachOk j = true) :
    censorApproach j = some (censorApproachSpec j) := by
  cases j with
  | obj fs =>
    simp only [approachOk, Bool.and_eq_true, decide_eq_true_eq] at h
    obtain ⟨hsum, hnd⟩ := h
    cases hl : lookupA fs "summary" with
    | none =>
      rw [hl] at hsum
      exact absurd hsum (by simp)
    | some sv =>
      rw [hl] at hsum
      cases sv with
      | obj sfs =>
        simp only [censorApproach, hl, censorApproachSpec]
        have hu := updateA_eq_map_if "summary" censorSummarySpec fs (.obj sfs) hnd hl
        have hcs : censorSummarySpec (.obj sfs) = .obj (censorSummaryFields sfs) := by
          simp only [censorSummarySpec, censorSummaryFields, removeA_removeA]
        rw [hcs] at hu
        rw [hu]
      | null => exact absurd hsum (by simp)
      | bool b => exact absurd hsum (by simp)
      | num q => exact absurd hsum (by simp)
      | str s => exact absurd hsum (by simp)
      | arr xs => exact absurd hsum (by simp)
  | null => exact absurd h (by simp [approachOk])
  | bool b => exact absurd h (by simp [approachOk])
  | num q => exact absurd h (by simp [approachOk])
  | str s => exact absurd h (by simp [approachOk])
  | arr xs => exact absurd h (by simp [approachOk])

theorem censorApproachList_spec :
    ∀ afs : List (String × Json), (∀ p ∈ afs, approachOk p.2 = true) →
      censorApproachList afs = some (afs.map (fun p => (p.1, censorApproachSpec p.2)))
  | [], _ => rfl
  | (ak, av) :: t, h => by
    simp only [censorApproachList]
    rw [censorApproach_spec av (h (ak, av) (List.mem_cons_self _ _)),
      censorApproachList_spec t (fun p hp => h p (List.mem_cons_of_mem _ hp))]
    rfl

theorem censorDetails_spec (j : Json) (h : approachMapOk j = true) :
    censorDetails j = some (objFieldsOf (censorDetailsSpec j)) := by
  cases j with
  | obj afs =>
    simp only [censorDetails, censorDetailsSpec, objFieldsOf]
    exact censorApproachList_spec afs (by simpa [approachMapOk, List.all_eq_true] using h)
  | null => exact absurd h (by simp [approachMapOk])
  | bool b => exact absurd h (by simp [approachMapOk])
  | num q => exact absurd h (by simp [approachMapOk])
  | str s => exact absurd h (by simp [approachMapOk])
  | arr xs => exact absurd h (by simp [approachMapOk])

theorem censorEntries_spec (sub : String → String → String) :
    ∀ (rfs : List (String × Json)) (c : Nat), (∀ p ∈ rfs, approachMapOk p.2 = true) →
      censorEntries sub rfs c =
        some (List.zipWith (fun (p : String × Json) i =>
          (sub (format3 i) p.1, censorDetailsSpec p.2)) rfs (List.range' (c + 1) rfs.length))
  | [], _, _ => rfl
  | (jk, details) :: rest, c, h => by
    simp only [censorEntries]
    rw [censorDetails_spec details (h (jk, details) (List.mem_cons_self _ _)),
      censorEntries_spec sub rest (c + 1) (fun p hp => h p (List.mem_cons_of_mem _ hp))]
    simp only [List.length_cons, List.range'_succ, List.zipWith_cons_cons]
    have hobj : Json.obj (objFieldsOf (censorDetailsSpec details)) = censorDetailsSpec details := by
      have := h (jk, details) (List.mem_cons_self _ _)
      cases details with
      | obj afs => rfl
      | null => exact absurd this (by simp [approachMapOk])
      | bool b => exact absurd this (by simp [approachMapOk])
      | num q => exact absurd this (by simp [approachMapOk])
      | str s => exact absurd this (by simp [approachMapOk])
      | arr xs => exact absurd this (by simp [approachMapOk])
    rw [hobj]
    rfl

theorem foldl_updateA_of_nodup :
    ∀ (entries acc : List (String × Json)), ((acc ++ entries).map Prod.fst).Nodup →
      entries.foldl (fun a kv => updateA a kv.1 kv.2) acc = acc ++ entries
  | [], acc, _ => by simp
  | (k, v) :: t, acc, hnd => by
    have hknotin : k ∉ acc.map Prod.fst := by
      rw [List.map_append] at hnd
      rcases List.nodup_append.mp hnd with ⟨-, -, hdisj⟩
      intro hmem
      exact hdisj hmem (by simp)
    have hupd : updateA acc k v = acc ++ [(k, v)] :=
      updateA_of_lookup_none acc k v (lookupA_eq_none_of_not_mem acc k hknotin)
    rw [List.foldl_cons, hupd]
    have hnd' : (((acc ++ [(k, v)]) ++ t).map Prod.fst).Nodup := by
      simpa [List.append_assoc] using hnd
    rw [foldl_updateA_of_nodup t (acc ++ [(k, v)]) hnd']
    simp [List.append_assoc]

theorem lookupA_censorSummary_removed (sfs : List (String × Json)) :
    lookupA (objFieldsOf (censorSummarySpec (.obj sfs))) "command_line" = none
    ∧ lookupA (objFieldsOf (censorSummarySpec (.obj sfs))) "command_lines" = none := by
  simp only [censorSummarySpec, objFieldsOf]
  induction sfs with
  | nil => exact ⟨rfl, rfl⟩
  | cons q t ih =>
    obtain ⟨k0, v0⟩ := q
    by_cases hk : k0 != "command_line" && k0 != "command_lines"
    · rw [List.filter_cons_of_pos (by simpa using hk)]
      simp only [bne_iff_ne, ne_eq, Bool.and_eq_true, bne] at hk
      constructor
      · simp only [lookupA]
        rw [if_neg (by simpa using hk.1)]
        exact ih.1
      · simp only [lookupA]
        rw [if_neg (by simpa using hk.2)]
        exact ih.2
    · rw [List.filter_cons_of_neg (by simpa using hk)]
      exact ih

theorem lookupA_censorSummary_kept (sfs : List (String × Json)) (k : String)
    (h1 : k ≠ "command_line") (h2 : k ≠ "command_lines") :
    lookupA (objFieldsOf (censorSummarySpec (.obj sfs))) k = lookupA sfs k := by
  simp only [censorSummarySpec, objFieldsOf]
  induction sfs with
  | nil => rfl
  | cons q t ih =>
    obtain ⟨k0, v0⟩ := q
    by_cases hkeep : k0 != "command_line" && k0 != "command_lines"
    · rw [List.filter_cons_of_pos (by simpa using hkeep)]
      simp only [lookupA]
      by_cases hk0 : k0 = k
      · rw [if_pos hk0, if_pos hk0]
      · rw [if_neg hk0, if_neg hk0]
        exact ih
    · rw [List.filter_cons_of_neg (by simpa using hkeep)]
      have hk0ne : k0 ≠ k := by
        simp only [Bool.and_eq_true, bne_iff_ne, ne_eq, not_and_or, not_not] at hkeep
        rcases hkeep with rfl | rfl
        · exact fun hh => h1 hh.symm
        · exact fun hh => h2 hh.symm
      simp only [lookupA]
      rw [if_neg hk0ne]
      exact ih

theorem lookupA_map_if_summary (fs : List (String × Json)) (sfs : List (String × Json))
    (hl : lookupA fs "summary" = some (.obj sfs)) :
    lookupA (fs.map (fun q => if q.1 = "summary" then (q.1, censorSummarySpec q.2) else q))
      "summary" = some (censorSummarySpec (.obj sfs)) := by
  induction fs with
  | nil => exact absurd hl (by simp [lookupA])
  | cons q t ih =>
    obtain ⟨k0, v0⟩ := q
    by_cases hk : k0 = "summary"
    · subst hk
      simp only [lookupA] at hl
      simp only [if_true] at hl
      simp only [Option.some_inj] at hl
      subst hl
      simp [lookupA]
    · simp only [lookupA, if_neg hk] at hl
      simp only [List.map_cons]
      rw [if_neg hk]
      simp only [lookupA]
      rw [if_neg hk]
      exact ih hl

theorem lookupA_map_if_other (fs : List (String × Json)) (k : String)
    (hk : k ≠ "summary") :
    lookupA (fs.map (fun q => if q.1 = "summary" then (q.1, censorSummarySpec q.2) else q)) k =
      lookupA fs k := by
  induction fs with
  | nil => rfl
  | cons q t ih =>
    obtain ⟨k0, v0⟩ := q
    simp only [List.map_cons]
    by_cases hk0 : k0 = "summary"
    · subst hk0
      rw [if_pos rfl]
      simp only [lookupA]
      have hne : "summary" ≠ k := fun hh => hk hh.symm
      rw [if_neg hne, if_neg hne]
      exact ih
    · rw [if_neg hk0]
      simp only [lookupA]
      by_cases hkk : k0 = k
      · rw [if_pos hkk, if_pos hkk]
      · rw [if_neg hkk, if_neg hkk]
        exact ih

/-- C6: `censor_results` replaces `results` by the entries renamed with the
zero-padded 1-based counter substituted for the user regex in iteration
order (hypothesis: the censored names are distinct, since the output dict
would collapse duplicates); every approach's summary loses exactly
`command_line` and `command_lines` while its other fields, the other
approach members (e.g. `measurements`) and the other top-level sections
(`settings`, `system`, `timestamps`) are unchanged. -/
theorem C6_censor_results (sub : String → String → String)
    (benchmark rfs : List (String × Json))
    (h1 : lookupA benchmark "results" = some (.obj rfs))
    (h2 : ∀ p ∈ rfs, approachMapOk p.2 = true)
    (h3 : ((censorSpecList sub rfs).map Prod.fst).Nodup) :
    censor_results_main sub benchmark =
      some (updateA benchmark "results" (.obj (censorSpecList sub rfs)))
    ∧ (∀ k, k ≠ "results" →
        lookupA (updateA benchmark "results" (.obj (censorSpecList sub rfs))) k =
          lookupA benchmark k)
    ∧ (censorSpecList sub rfs).map Prod.fst =
        List.zipWith (fun (p : String × Json) i => sub (format3 i) p.1) rfs
          (List.range' 1 rfs.length)
    ∧ (∀ fs sfs, lookupA fs "summary" = some (.obj sfs) →
        lookupA (objFieldsOf (censorApproachSpec (.obj fs))) "summary" =
            some (censorSummarySpec (.obj sfs))
          ∧ ∀ k, k ≠ "summary" →
              lookupA (objFieldsOf (censorApproachSpec (.obj fs))) k = lookupA fs k)
    ∧ (∀ sfs, lookupA (objFieldsOf (censorSummarySpec (.obj sfs))) "command_line" = none
        ∧ lookupA (objFieldsOf (censorSummarySpec (.obj sfs))) "command_lines" = none
        ∧ ∀ k, k ≠ "command_line" → k ≠ "command_lines" →
            lookupA (objFieldsOf (censorSummarySpec (.obj sfs))) k = lookupA sfs k) := by
  refine ⟨?_, ?_, ?_, ?_, ?_⟩
  · unfold censor_results_main
    rw [h1]
    dsimp only
    rw [censorEntries_spec sub rfs 0 h2]
    simp only [Option.map_some']
    have : List.zipWith (fun (p : String × Json) i =>
        (sub (format3 i) p.1, censorDetailsSpec p.2)) rfs (List.range' (0 + 1) rfs.length) =
        censorSpecList sub rfs := rfl
    rw [this, foldl_updateA_of_nodup (censorSpecList sub rfs) [] (by simpa using h3)]
    rfl
  · intro k hk
    exact lookupA_updateA_ne benchmark "results" k _ hk
  · unfold censorSpecList
    rw [List.map_zipWith]
  · intro fs sfs hl
    constructor
    · simp only [censorApproachSpec, objFieldsOf]
      exact lookupA_map_if_summary fs sfs hl
    · intro k hk
      simp only [censorApproachSpec, objFieldsOf]
      exact lookupA_map_if_other fs k hk
  · intro sfs
    exact ⟨(lookupA_censorSummary_removed sfs).1, (lookupA_censorSummary_removed sfs).2,
      fun k hk1 hk2 => lookupA_censorSummary_kept sfs k hk1 hk2⟩

/-- Concrete benchmark document for the C6 witness. -/
def demoCensorRfs : List (String × Json) :=
  [("secret_file.jacobi_data", .obj
    [("flat", .obj
      [("summary", .obj
        [("max_Mps", .str "4"), ("command_line", .str "secret cmd")]),
       ("measurements", .obj [("add", .str "4")])])])]

/-- Concrete top-level document for the C6 witness. -/
def demoCensorInput : List (String × Json) :=
  [("settings", .str "s"), ("results", .obj demoCensorRfs), ("system", .str "host")]

/-- Witness for C6 with the substitution that replaces the whole name by
the formatted counter. -/
theorem C6_censor_results_witness :
    censor_results_main (fun rep _ => rep) demoCensorInput =
      some (updateA demoCensorInput "results"
        (.obj (censorSpecList (fun rep _ => rep) demoCensorRfs))) :=
  (C6_censor_results (fun rep _ => rep) demoCensorInput demoCensorRfs rfl
    (by decide) (by decide)).1

/-! ### `results2db.py`: `is_valid_table_name` / `write_sqlite` (claim C9)

Source lines 9-11 and 58-62.  `re.match(r'^[a-zA-Z_][a-zA-Z0-9_]*$', name)`
anchors at the start, but Python's `$` matches either at the end of the
string or just before a single trailing newline, so a name such as
`"t\n"` is accepted by the guard and interpolated — newline included —
into the SQL statements. -/

/-- Character class `[a-zA-Z_]`. -/
def isTblFirst (c : Char) : Bool := c.isAlpha || c == '_'

/-- Character class `[a-zA-Z0-9_]`. -/
def isTblRest (c : Char) : Bool := c.isAlphanum || c == '_'

/-- The guard `is_valid_table_name`, with Python's `$` semantics: the body
may be followed by one optional trailing newline. -/
def is_valid_table_name (s : String) : Bool :=
  match s.data with
  | [] => false
  | c :: rest =>
    isTblFirst c &&
      (rest.all isTblRest ||
        (rest.getLast? == some '\n' && rest.dropLast.all isTblRest))

/-- The identifier pattern as the claim reads it: every character a letter,
digit or underscore, first one not a digit. -/
def tblPatternCore : List Char → Bool
  | [] => false
  | c :: rest => isTblFirst c && rest.all isTblRest

/-- The claim's reading of `^[a-zA-Z_][a-zA-Z0-9_]*$` as an exact whole-string
match. -/
def matchesTablePattern (s : String) : Bool := tblPatternCore s.data

/-- The SQL statements `write_sqlite` executes after the guard, with the
table name interpolated; `none` is the `sys.exit` branch that runs no SQL
and opens no connection. -/
def write_sqlite_sql (table_name : String) : Option (List String) :=
  if is_valid_table_name table_name then
    some ["CREATE TABLE IF NOT EXISTS " ++ table_name ++
        " (id INTEGER PRIMARY KEY AUTOINCREMENT, git_commit TEXT, compiler TEXT, " ++
        "jacobi_data TEXT, orders_table_storage TEXT, components TEXT, mps REAL)",
      "CREATE INDEX IF NOT EXISTS idx_" ++ table_name ++ "_comp_storage ON " ++
        table_name ++ " (compiler, orders_table_storage)",
      "CREATE INDEX IF NOT EXISTS idx_" ++ table_name ++ "_comp_storage_components ON " ++
        table_name ++ " (compiler, orders_table_storage, components)",
      "CREATE INDEX IF NOT EXISTS idx_" ++ table_name ++ "_book_unit ON " ++
        table_name ++ " (orders_table_storage, components)",
      "CREATE INDEX IF NOT EXISTS idx_" ++ table_name ++ "_file_unit ON " ++
        table_name ++ " (jacobi_data)",
      "INSERT INTO " ++ table_name ++
        " (git_commit, compiler, jacobi_data, orders_table_storage, components, mps) " ++
        "VALUES (?, ?, ?, ?, ?, ?)"]
  else none

/-- C9 counterexample: the table name consisting of `t` followed by a
newline passes `is_valid_table_name` (Python's `$` matches before the
trailing newline), so `write_sqlite` proceeds to execute SQL although the
name neither matches the identifier pattern as a whole-string match nor
consists only of letters, digits and underscores. -/
theorem C9_counterexample :
    is_valid_table_name "t\n" = true
    ∧ (write_sqlite_sql "t\n").isSome = true
    ∧ matchesTablePattern "t\n" = false
    ∧ ("t\n").data.all isTblRest = false := by
  refine ⟨by decide, by decide, by decide, by decide⟩

theorem eq_dropLast_append_of_getLast? {α : Type} :
    ∀ (l : List α) (a : α), l.getLast? = some a → l = l.dropLast ++ [a]
  | [], a, h => by simp at h
  | [x], a, h => by
    simp only [List.getLast?_singleton, Option.some_inj] at h
    subst h
    rfl
  | x :: y :: t, a, h => by
    have h' : (y :: t).getLast? = some a := by
      rw [← h]
      rfl
    have := eq_dropLast_append_of_getLast? (y :: t) a h'
    calc x :: y :: t = x :: ((y :: t).dropLast ++ [a]) := by rw [← this]
      _ = (x :: y :: t).dropLast ++ [a] := by
          simp [List.dropLast]

/-- C9 amended: `write_sqlite` executes SQL (and opens the database) exactly
when the requested table name matches `^[a-zA-Z_][a-zA-Z0-9_]*$` up to one
optional trailing newline; consequently every character interpolated into
the CREATE/INSERT statements is a letter, digit or underscore except
possibly a single final newline. -/
theorem C9_write_sqlite_guard (s : String) :
    ((write_sqlite_sql s).isSome = true ↔
      (tblPatternCore s.data = true ∨
        ∃ core, s.data = core ++ ['\n'] ∧ tblPatternCore core = true))
    ∧ ((write_sqlite_sql s).isSome = true →
        ∀ c ∈ s.data, isTblFirst c = true ∨ isTblRest c = true ∨ c = '\n') := by
  have hvalid : (write_sqlite_sql s).isSome = true ↔ is_valid_table_name s = true := by
    unfold write_sqlite_sql
    by_cases h : is_valid_table_name s = true
    · rw [if_pos h]
      exact ⟨fun _ => h, fun _ => rfl⟩
    · rw [if_neg h]
      exact ⟨fun hh => absurd hh (by simp), fun hh => absurd hh h⟩
  have hchar : is_valid_table_name s = true ↔
      (tblPatternCore s.data = true ∨
        ∃ core, s.data = core ++ ['\n'] ∧ tblPatternCore core = true) := by
    unfold is_valid_table_name tblPatternCore
    cases hd : s.data with
    | nil =>
      simp only [Bool.false_eq_true, false_iff]
      push_neg
      refine ⟨by simp, ?_⟩
      intro core hcore
      exact absurd (congrArg List.length hcore) (by simp)
    | cons c rest =>
      constructor
      · intro h
        simp only [Bool.and_eq_true, Bool.or_eq_true] at h
        obtain ⟨hfirst, hrest⟩ := h
        rcases hrest with hall | hnl
        · exact Or.inl (by simp [hfirst, hall])
        · simp only [Bool.and_eq_true, beq_iff_eq] at hnl
          obtain ⟨hlast, hdrop⟩ := hnl
          refine Or.inr ⟨c :: rest.dropLast, ?_, ?_⟩
          · rw [List.cons_append]
            congr 1
            exact eq_dropLast_append_of_getLast? rest '\n' hlast
          · simp [hfirst, hdrop]
      · intro h
        rcases h with hall | ⟨core, hcore, hpat⟩
        · simp only [Bool.and_eq_true] at hall
          simp [hall.1, hall.2]
        · cases core with
          | nil => simp at hpat
          | cons c0 rest0 =>
            simp only [List.cons_append, List.cons.injEq] at hcore
            obtain ⟨rfl, hrest⟩ := hcore
            subst hrest
            simp only [Bool.and_eq_true] at hpat
            have hlast : (rest0 ++ ['\n']).getLast? = some '\n' := by
              simp [List.getLast?_append]
            have hdrop : (rest0 ++ ['\n']).dropLast = rest0 := by
              simp
            simp [hpat.1, hlast, hdrop, hpat.2]
  refine ⟨hvalid.trans hchar, ?_⟩
  · intro hsome c hc
    rcases (hvalid.trans hchar).mp hsome with hall | ⟨core, hcore, hpat⟩
    · cases hd : s.data with
      | nil =>
        rw [hd] at hc
        simp at hc
      | cons c0 rest =>
        rw [hd] at hc
        rw [hd] at hall
        simp only [tblPatternCore, Bool.and_eq_true] at hall
        rcases List.mem_cons.mp hc with rfl | hc'
        · exact Or.inl hall.1
        · exact Or.inr (Or.inl (by
            have := hall.2
            rw [List.all_eq_true] at this
            exact this c hc'))
    · rw [hcore] at hc
      rcases List.mem_append.mp hc with hc' | hc'
      · cases core with
        | nil => simp [tblPatternCore] at hpat
        | cons c0 rest0 =>
          simp only [tblPatternCore, Bool.and_eq_true] at hpat
          rcases List.mem_cons.mp hc' with rfl | hc''
          · exact Or.inl hpat.1
          · exact Or.inr (Or.inl (by
              have := hpat.2
              rw [List.all_eq_true] at this
              exact this c hc''))
      · simp only [List.mem_singleton] at hc'
        exact Or.inr (Or.inr hc')

/-- Witness for the amended C9 at a plain identifier. -/
theorem C9_write_sqlite_guard_witness : (write_sqlite_sql "tbl_1").isSome = true :=
  (C9_write_sqlite_guard "tbl_1").1.mpr (Or.inl (by decide))

/-! ### `conanfile.py`: `JacobiConan.set_version` (claim C10)

Source lines 12-29.  Three `re.search` calls look for
`VERSION_MAJOR\s+(\d+)ull` (resp. `MINOR`, `PATCH`) in the version header;
if all three match, the version is `f"{major}.{minor}.{patch}"`, otherwise
`ValueError` is raised (`none` below).  For this pattern the regex engine
never backtracks (`\s`, `\d` and `u` are pairwise disjoint), so a match at
a position is the maximal whitespace run followed by the maximal digit run
followed by the literal `ull`. -/

/-- The characters of the literal `ull`. -/
def ullChars : List Char := "ull".data

/-- Attempt of `KEY\s+(\d+)ull` at the current position. -/
def matchVerAt (key : List Char) (cs : List Char) : Option Nat :=
  if key.isPrefixOf cs then
    if ((cs.drop key.length).takeWhile isSpaceCh).isEmpty then none
    else if (((cs.drop key.length).dropWhile isSpaceCh).takeWhile Char.isDigit).isEmpty then
      none
    else if ullChars.isPrefixOf
        (((cs.drop key.length).dropWhile isSpaceCh).drop
          (((cs.drop key.length).dropWhile isSpaceCh).takeWhile Char.isDigit).length) then
      some (natOfDigits (((cs.drop key.length).dropWhile isSpaceCh).takeWhile Char.isDigit))
    else none
  else none

/-- The `re.search` scan: first position whose attempt succeeds. -/
def findVerNum (key : List Char) : List Char → Option Nat
  | [] => none
  | c :: t =>
    match matchVerAt key (c :: t) with
    | some n => some n
    | none => findVerNum key t

/-- The function `set_version`: `none` models the raised `ValueError`. -/
def set_version (content : String) : Option String :=
  match findVerNum "VERSION_MAJOR".data content.data,
      findVerNum "VERSION_MINOR".data content.data,
      findVerNum "VERSION_PATCH".data content.data with
  | some a, some b, some c =>
    some (toString a ++ "." ++ toString b ++ "." ++ toString c)
  | _, _, _ => none

/-- A version header containing the three definitions in order. -/
def versionHeader (A w1 d1 B w2 d2 C w3 d3 post : List Char) : List Char :=
  A ++ "VERSION_MAJOR".data ++ w1 ++ d1 ++ ullChars ++
    B ++ "VERSION_MINOR".data ++ w2 ++ d2 ++ ullChars ++
    C ++ "VERSION_PATCH".data ++ w3 ++ d3 ++ ullChars ++ post

theorem space_not_digit (c : Char) (h : isSpaceCh c = true) : c.isDigit = false := by
  simp only [isSpaceCh, Bool.or_eq_true, beq_iff_eq] at h
  rcases h with ((((h | h) | h) | h) | h) | h <;> subst h <;> decide

theorem digit_not_space (c : Char) (h : c.isDigit = true) : isSpaceCh c = false := by
  cases hs : isSpaceCh c with
  | false => rfl
  | true => exact absurd h (by simp [space_not_digit c hs])

theorem matchVerAt_structured (key ws ds rest2 : List Char)
    (hws : ws ≠ [] ∧ ∀ c ∈ ws, isSpaceCh c = true)
    (hds : ds ≠ [] ∧ ∀ c ∈ ds, c.isDigit = true) :
    matchVerAt key (key ++ (ws ++ (ds ++ (ullChars ++ rest2)))) = some (natOfDigits ds) := by
  obtain ⟨hwsne, hwss⟩ := hws
  obtain ⟨hdsne, hdsd⟩ := hds
  obtain ⟨d0, ds', rfl⟩ : ∃ d0 ds', ds = d0 :: ds' := by
    cases ds with
    | nil => exact absurd rfl hdsne
    | cons x xs => exact ⟨x, xs, rfl⟩
  have hnotspace : isSpaceCh d0 = false :=
    digit_not_space d0 (hdsd d0 (List.mem_cons_self _ _))
  have hcons : (d0 :: ds') ++ (ullChars ++ rest2) = d0 :: (ds' ++ (ullChars ++ rest2)) :=
    List.cons_append d0 ds' _
  have htw : ((ws ++ ((d0 :: ds') ++ (ullChars ++ rest2))).takeWhile isSpaceCh) = ws := by
    rw [takeWhile_append_of_all ws _ hwss, hcons,
      takeWhile_cons_of_neg _ _ hnotspace, List.append_nil]
  have hdw : ((ws ++ ((d0 :: ds') ++ (ullChars ++ rest2))).dropWhile isSpaceCh) =
      (d0 :: ds') ++ (ullChars ++ rest2) := by
    rw [dropWhile_append_of_all ws _ hwss, hcons,
      dropWhile_cons_of_neg _ _ hnotspace]
  have hull : ullChars ++ rest2 = 'u' :: ("ll".data ++ rest2) := rfl
  have htd : (((d0 :: ds') ++ (ullChars ++ rest2)).takeWhile Char.isDigit) = d0 :: ds' := by
    rw [takeWhile_append_of_all _ _ hdsd, hull,
      takeWhile_cons_of_neg _ _ (by decide), List.append_nil]
  unfold matchVerAt
  rw [if_pos (isPrefixOf_append_self key _), List.drop_left, htw]
  rw [if_neg (by simpa [List.isEmpty_iff] using hwsne)]
  rw [hdw, htd]
  rw [if_neg (by simp [List.isEmpty_iff])]
  rw [List.drop_left]
  rw [if_pos (isPrefixOf_append_self ullChars rest2)]

theorem findVerNum_concat (key : List Char) :
    ∀ (pre suffix : List Char) (n : Nat), suffix ≠ [] →
      (∀ i, i < pre.length → key.isPrefixOf ((pre ++ suffix).drop i) = false) →
      matchVerAt key suffix = some n →
      findVerNum key (pre ++ suffix) = some n
  | [], suffix, n, hne, _, hm => by
    cases suffix with
    | nil => exact absurd rfl hne
    | cons c t =>
      simp only [List.nil_append, findVerNum]
      rw [hm]
  | c :: pre', suffix, n, hne, hpre, hm => by
    have h0 : key.isPrefixOf (c :: (pre' ++ suffix)) = false := by
      have := hpre 0 (by simp)
      simpa using this
    have hfail : matchVerAt key (c :: (pre' ++ suffix)) = none := by
      unfold matchVerAt
      rw [h0]
      simp
    show findVerNum key ((c :: pre') ++ suffix) = some n
    rw [List.cons_append]
    show (match matchVerAt key (c :: (pre' ++ suffix)) with
      | some m => some m
      | none => findVerNum key (pre' ++ suffix)) = some n
    rw [hfail]
    exact findVerNum_concat key pre' suffix n hne
      (fun i hi => by
        have := hpre (i + 1) (by simpa using Nat.succ_lt_succ hi)
        simpa using this) hm

/-- C10: when the header contains `VERSION_MAJOR`, `VERSION_MINOR` and
`VERSION_PATCH` each followed by whitespace, digits and `ull` (and the key
does not occur earlier in the scanned text), `set_version` returns
`"major.minor.patch"`; when any of the three searches fails it raises
`ValueError`. -/
theorem C10_set_version (A w1 d1 B w2 d2 C w3 d3 post : List Char)
    (hw1 : w1 ≠ [] ∧ ∀ c ∈ w1, isSpaceCh c = true)
    (hw2 : w2 ≠ [] ∧ ∀ c ∈ w2, isSpaceCh c = true)
    (hw3 : w3 ≠ [] ∧ ∀ c ∈ w3, isSpaceCh c = true)
    (hd1 : d1 ≠ [] ∧ ∀ c ∈ d1, c.isDigit = true)
    (hd2 : d2 ≠ [] ∧ ∀ c ∈ d2, c.isDigit = true)
    (hd3 : d3 ≠ [] ∧ ∀ c ∈ d3, c.isDigit = true)
    (h1 : ∀ i, i < A.length →
      ("VERSION_MAJOR".data).isPrefixOf
        ((versionHeader A w1 d1 B w2 d2 C w3 d3 post).drop i) = false)
    (h2 : ∀ i, i < (A ++ "VERSION_MAJOR".data ++ w1 ++ d1 ++ ullChars ++ B).length →
      ("VERSION_MINOR".data).isPrefixOf
        ((versionHeader A w1 d1 B w2 d2 C w3 d3 post).drop i) = false)
    (h3 : ∀ i, i < (A ++ "VERSION_MAJOR".data ++ w1 ++ d1 ++ ullChars ++
        B ++ "VERSION_MINOR".data ++ w2 ++ d2 ++ ullChars ++ C).length →
      ("VERSION_PATCH".data).isPrefixOf
        ((versionHeader A w1 d1 B w2 d2 C w3 d3 post).drop i) = false) :
    set_version (String.mk (versionHeader A w1 d1 B w2 d2 C w3 d3 post)) =
      some (toString (natOfDigits d1) ++ "." ++ toString (natOfDigits d2) ++ "." ++
        toString (natOfDigits d3))
    ∧ (∀ content : String,
        (findVerNum "VERSION_MAJOR".data content.data = none ∨
          findVerNum "VERSION_MINOR".data content.data = none ∨
          findVerNum "VERSION_PATCH".data content.data = none) →
        set_version content = none) := by
  constructor
  · have hdata : (String.mk (versionHeader A w1 d1 B w2 d2 C w3 d3 post)).data =
        versionHeader A w1 d1 B w2 d2 C w3 d3 post := rfl
    have hsplit1 : versionHeader A w1 d1 B w2 d2 C w3 d3 post =
        A ++ ("VERSION_MAJOR".data ++ (w1 ++ (d1 ++ (ullChars ++
          (B ++ "VERSION_MINOR".data ++ w2 ++ d2 ++ ullChars ++
            C ++ "VERSION_PATCH".data ++ w3 ++ d3 ++ ullChars ++ post))))) := by
      simp [versionHeader, List.append_assoc]
    have hsplit2 : versionHeader A w1 d1 B w2 d2 C w3 d3 post =
        (A ++ "VERSION_MAJOR".data ++ w1 ++ d1 ++ ullChars ++ B) ++
          ("VERSION_MINOR".data ++ (w2 ++ (d2 ++ (ullChars ++
            (C ++ "VERSION_PATCH".data ++ w3 ++ d3 ++ ullChars ++ post))))) := by
      simp [versionHeader, List.append_assoc]
    have hsplit3 : versionHeader A w1 d1 B w2 d2 C w3 d3 post =
        (A ++ "VERSION_MAJOR".data ++ w1 ++ d1 ++ ullChars ++
          B ++ "VERSION_MINOR".data ++ w2 ++ d2 ++ ullChars ++ C) ++
          ("VERSION_PATCH".data ++ (w3 ++ (d3 ++ (ullChars ++ post)))) := by
      simp [versionHeader, List.append_assoc]
    have hf1 : findVerNum "VERSION_MAJOR".data
        (versionHeader A w1 d1 B w2 d2 C w3 d3 post) = some (natOfDigits d1) := by
      rw [hsplit1]
      refine findVerNum_concat _ A _ _ (by simp) ?_
        (matchVerAt_structured "VERSION_MAJOR".data w1 d1 _ hw1 hd1)
      intro i hi
      have := h1 i hi
      rw [hsplit1] at this
      exact this
    have hf2 : findVerNum "VERSION_MINOR".data
        (versionHeader A w1 d1 B w2 d2 C w3 d3 post) = some (natOfDigits d2) := by
      rw [hsplit2]
      refine findVerNum_concat _ _ _ _ (by simp) ?_
        (matchVerAt_structured "VERSION_MINOR".data w2 d2 _ hw2 hd2)
      intro i hi
      have := h2 i hi
      rw [hsplit2] at this
      exact this
    have hf3 : findVerNum "VERSION_PATCH".data
        (versionHeader A w1 d1 B w2 d2 C w3 d3 post) = some (natOfDigits d3) := by
      rw [hsplit3]
      refine findVerNum_concat _ _ _ _ (by simp) ?_
        (matchVerAt_structured "VERSION_PATCH".data w3 d3 _ hw3 hd3)
      intro i hi
      have := h3 i hi
      rw [hsplit3] at this
      exact this
    unfold set_version
    rw [hdata, hf1, hf2, hf3]
  · intro content hcase
    unfold set_version
    rcases hcase with h | h | h <;> rw [h] <;>
      first
        | rfl
        | (cases findVerNum "VERSION_MINOR".data content.data <;>
            cases findVerNum "VERSION_PATCH".data content.data <;> rfl)
        | (cases findVerNum "VERSION_MAJOR".data content.data <;>
            cases findVerNum "VERSION_PATCH".data content.data <;> rfl)
        | (cases findVerNum "VERSION_MAJOR".data content.data <;>
            cases findVerNum "VERSION_MINOR".data content.data <;> rfl)

/-- Witness for C10 on a concrete three-line version header. -/
theorem C10_set_version_witness :
    set_version (String.mk (versionHeader "x ".data " ".data "1".data "\n".data " ".data
        "22".data "\n".data " ".data "3".data "\n".data)) =
      some (toString (natOfDigits "1".data) ++ "." ++ toString (natOfDigits "22".data) ++
        "." ++ toString (natOfDigits "3".data)) :=
  (C10_set_version "x ".data " ".data "1".data "\n".data " ".data "22".data "\n".data
    " ".data "3".data "\n".data
    ⟨by decide, by decide⟩ ⟨by decide, by decide⟩ ⟨by decide, by decide⟩
    ⟨by decide, by decide⟩ ⟨by decide, by decide⟩ ⟨by decide, by decide⟩
    (by decide) (by decide) (by decide)).1

end Jacobi
